import Mathlib

/-!
# Verification development for `musicCode.cpp`, `simpleLinkedList.cpp` and `gradeUsingMap.cpp`

A shallow embedding of the `MusicPlayer` class (the pitch table, the note
parser, the tone synthesiser, the score renderer and the WAV encoder), of the
`LinkedList` class and of `Student::addOrUpdateGrade`.  The definitions of the
three programs come first, each in its namespace, then the theorems.

Modelling conventions.

* `std::string` is a `List Char`; every character the program inspects is ASCII.
* `int` values are `Int`; where the source narrows or may overflow the wrap is
  written out explicitly.
* `double` is an arbitrary carrier `F` with the operations the program uses,
  bundled in `DoubleOps F`.  The embedding is written once for every such
  carrier, so a statement proved for all `DoubleOps F` holds for IEEE-754
  arithmetic in particular.  Statements that depend on the numeric value of a
  result are proved for the exact real-number interpretation, `DoubleOps.Exact`.
* A C++ exception is an `Except.error`.
-/

namespace MusicCode

/-! ## The `double` operations used by the program -/

/-- The operations on `double` that `MusicPlayer` uses.  `toInt` and `toInt16`
are `static_cast<int>` and `static_cast<int16_t>`; they answer `none` where the
conversion is undefined (the truncated value is not representable). -/
structure DoubleOps (F : Type) where
  ofInt : Int → F
  lit : ℚ → F
  add : F → F → F
  sub : F → F → F
  mul : F → F → F
  div : F → F → F
  pow : F → F → F
  sin : F → F
  pi : F
  toInt : F → Option Int
  toInt16 : F → Option Int

/-- The exact interpretation of `double` in the real numbers: every operation
is the mathematical one, and a conversion to an integer type truncates toward
zero (floor of a nonnegative value, ceiling of a negative one) when the
truncated value fits the type.  Division is pinned down for a nonzero divisor
and `pow` for a positive base only: a quotient by zero is an infinity or a NaN in
the program and no real number. -/
structure DoubleOps.Exact (A : DoubleOps ℝ) : Prop where
  ofInt_eq : ∀ n : Int, A.ofInt n = (n : ℝ)
  lit_eq : ∀ q : ℚ, A.lit q = (q : ℝ)
  add_eq : ∀ x y : ℝ, A.add x y = x + y
  sub_eq : ∀ x y : ℝ, A.sub x y = x - y
  mul_eq : ∀ x y : ℝ, A.mul x y = x * y
  div_eq : ∀ x y : ℝ, y ≠ 0 → A.div x y = x / y
  pow_eq : ∀ x y : ℝ, 0 < x → A.pow x y = x ^ y
  sin_eq : ∀ x : ℝ, A.sin x = Real.sin x
  pi_eq : A.pi = Real.pi
  toInt_eq : ∀ x : ℝ, A.toInt x =
    if -2147483649 < x ∧ x < 2147483648 then some (if 0 ≤ x then ⌊x⌋ else ⌈x⌉) else none
  toInt16_eq : ∀ x : ℝ, A.toInt16 x =
    if -32769 < x ∧ x < 32768 then some (if 0 ≤ x then ⌊x⌋ else ⌈x⌉) else none

/-! ## Strings and the frequency map -/

/-- The result of `std::to_string(int)`: decimal digits, with a leading `-` for a
negative value. -/
def to_string (n : Int) : List Char :=
  if n < 0 then '-' :: Nat.toDigits 10 n.natAbs else Nat.toDigits 10 n.toNat

/-- The type of `std::map<std::string, double>`, as an association list in which
the binding added last comes first. -/
abbrev FreqMap (F : Type) := List (List Char × F)

/-- The assignment `m[k] = v`: the new binding shadows any earlier one for `k`. -/
def FreqMap.assign {F : Type} (m : FreqMap F) (k : List Char) (v : F) : FreqMap F :=
  (k, v) :: m

/-- The lookup `m.find(k)`: the value bound to `k`, or `none` for `m.end()`. -/
def FreqMap.find {F : Type} : FreqMap F → List Char → Option F
  | [], _ => none
  | (k', v) :: rest, k => if k' = k then some v else FreqMap.find rest k

/-! ## `MusicPlayer::initFrequencies` -/

/-- The vector `notes` of `initFrequencies`. -/
def notes : List (List Char) :=
  [['C'], ['C', '#'], ['D'], ['D', '#'], ['E'], ['F'], ['F', '#'], ['G'], ['G', '#'],
   ['A'], ['A', '#'], ['B']]

/-- The chain of comparisons that picks `flatNote` for a sharp name; the string
stays empty when no comparison matches. -/
def flatNote (n : List Char) : List Char :=
  if n = ['C', '#'] then ['D', 'b']
  else if n = ['D', '#'] then ['E', 'b']
  else if n = ['F', '#'] then ['G', 'b']
  else if n = ['G', '#'] then ['A', 'b']
  else if n = ['A', '#'] then ['B', 'b']
  else []

/-- The value `(octave - 4) * 12 + (i - 9)`, the distance from A4 in semitones. -/
def semitones (octave i : Int) : Int := (octave - 4) * 12 + (i - 9)

/-- The value `440.0 * std::pow(2.0, semitones / 12.0)`. -/
def noteFreq {F : Type} (A : DoubleOps F) (octave i : Nat) : F :=
  A.mul (A.lit 440) (A.pow (A.lit 2) (A.div (A.ofInt (semitones octave i)) (A.lit 12)))

/-- One iteration of the inner loop of `initFrequencies`, for chromatic index `i`. -/
def initStep {F : Type} (A : DoubleOps F) (octave : Nat) (m : FreqMap F) (i : Nat) :
    FreqMap F :=
  let freq := noteFreq A octave i
  let noteName := notes.getD i [] ++ to_string (octave : Int)
  let m1 := m.assign noteName freq
  if (notes.getD i []).length = 2 then
    m1.assign (flatNote (notes.getD i []) ++ to_string (octave : Int)) freq
  else m1

/-- The table built by `initFrequencies`: octaves 0 to 8, chromatic indices 0 to 11. -/
def initFrequencies {F : Type} (A : DoubleOps F) : FreqMap F :=
  (List.range 9).foldl (fun m octave => (List.range 12).foldl (initStep A octave) m) []

/-- One iteration of the inner loop of `initFrequencies` with the frequency
replaced by the pair `(octave, i)` it is computed from. -/
def indexStep (octave : Nat) (m : List (List Char × Nat × Nat)) (i : Nat) :
    List (List Char × Nat × Nat) :=
  let m1 := (notes.getD i [] ++ to_string (octave : Int), octave, i) :: m
  if (notes.getD i []).length = 2 then
    (flatNote (notes.getD i []) ++ to_string (octave : Int), octave, i) :: m1
  else m1

/-- The loops of `initFrequencies` run on `indexStep`: which `(octave, i)` each key
of the table is bound to. -/
def tableIndex : List (List Char × Nat × Nat) :=
  (List.range 9).foldl (fun m octave => (List.range 12).foldl (indexStep octave) m) []

/-! ## Exceptions, `std::stoi` and the player state -/

/-- The C++ exceptions the program can raise, and `undefined_cast` for a
floating-to-integer conversion whose behaviour is undefined. -/
inductive Exn where
  | invalid_argument
  | out_of_range
  | length_error
  | undefined_cast
  deriving DecidableEq, Repr

/-- The predicate `std::isspace` in the C locale. -/
def isspace (c : Char) : Bool :=
  c = ' ' || c = '\t' || c = '\n' || c = '\x0b' || c = '\x0c' || c = '\r'

/-- The predicate `std::isdigit`. -/
def isdigit (c : Char) : Bool := decide ('0' ≤ c ∧ c ≤ '9')

/-- The value of the longest run of decimal digits at the head of `s`, continuing
from `acc`. -/
def digitsValue : Nat → List Char → Nat
  | acc, [] => acc
  | acc, c :: cs => if isdigit c then digitsValue (acc * 10 + (c.toNat - 48)) cs else acc

/-- The library function `std::stoi(s)` (base 10): skip leading white space, read
an optional sign and the longest run of digits; `invalid_argument` when there is
no digit, `out_of_range` when the value does not fit an `int`.  Characters after
the digits are ignored. -/
def stoi (s : List Char) : Except Exn Int :=
  let s1 := s.dropWhile isspace
  let signed : Bool × List Char :=
    match s1 with
    | c :: t => if c = '-' then (true, t) else if c = '+' then (false, t) else (false, s1)
    | [] => (false, s1)
  match signed.2 with
  | [] => .error .invalid_argument
  | c :: _ =>
    if isdigit c then
      let v : Int := digitsValue 0 signed.2
      let n : Int := if signed.1 then -v else v
      if -2147483648 ≤ n ∧ n ≤ 2147483647 then .ok n else .error .out_of_range
    else .error .invalid_argument

/-- The struct `Note`. -/
structure Note (F : Type) where
  frequency : F
  duration : F
  isRest : Bool

/-- The data members of `MusicPlayer`. -/
structure MusicPlayer (F : Type) where
  noteFrequencies : FreqMap F
  sampleRate : Int
  defaultOctave : Int
  defaultDuration : Int
  tempo : Int

/-- The constructor `MusicPlayer()`: the member initialisers, then
`initFrequencies()`. -/
def MusicPlayer.construct {F : Type} (A : DoubleOps F) : MusicPlayer F :=
  { noteFrequencies := initFrequencies A
    sampleRate := 44100
    defaultOctave := 4
    defaultDuration := 4
    tempo := 120 }

/-- The method `setTempo(bpm)`: the assignment `tempo = bpm`. -/
def MusicPlayer.setTempo {F : Type} (p : MusicPlayer F) (bpm : Int) : MusicPlayer F :=
  { p with tempo := bpm }

/-! ## `MusicPlayer::parseNote`

The cursor `i` of the source is represented by the unread suffix
`code.substr(i)`: the test `i < code.length() && code[i] ...` inspects the head of
that suffix, and `i++` drops it. -/

/-- The step "note name": an optional letter A-G or a-g, stored in upper case. -/
def scanLetter (r : List Char) : List Char × List Char :=
  match r with
  | c :: t =>
    if ('A' ≤ c ∧ c ≤ 'G') ∨ ('a' ≤ c ∧ c ≤ 'g') then ([c.toUpper], t) else ([], r)
  | [] => ([], r)

/-- The step "accidental": an optional `#` or `b`, appended to the note name. -/
def scanAccidental (noteName r : List Char) : List Char × List Char :=
  match r with
  | c :: t => if c = '#' ∨ c = 'b' then (noteName ++ [c], t) else (noteName, r)
  | [] => (noteName, r)

/-- The step "octave": an optional digit `0`-`8`, else the default octave. -/
def scanOctave (defaultOctave : Int) (r : List Char) : Int × List Char :=
  match r with
  | c :: t => if '0' ≤ c ∧ c ≤ '8' then ((c.toNat : Int) - 48, t) else (defaultOctave, r)
  | [] => (defaultOctave, r)

/-- The step "duration": after a `_` with something behind it, `std::stoi` of the
rest; else the default duration code. -/
def scanDuration (defaultDuration : Int) (r : List Char) : Except Exn Int :=
  match r with
  | c :: t =>
    if c = '_' then (if t ≠ [] then stoi t else .ok defaultDuration)
    else .ok defaultDuration
  | [] => .ok defaultDuration

/-- The three steps "note name", "accidental" and "octave" in sequence: the note
name read, the octave, and the unread rest of the token. -/
def scanPitch (defaultOctave : Int) (code : List Char) : List Char × Int × List Char :=
  let s1 := scanLetter code
  let s2 := scanAccidental s1.1 s1.2
  let s3 := scanOctave defaultOctave s2.2
  (s2.1, s3.1, s3.2)

/-- The test `code[0] == 'R' || code[0] == 'r' || code[0] == '-'`. -/
def restMarker (code : List Char) : Bool :=
  match code with
  | c0 :: _ => c0 = 'R' || c0 = 'r' || c0 = '-'
  | [] => false

/-- The value `(60.0 / tempo) * (4.0 / duration)`. -/
def noteSeconds {F : Type} (A : DoubleOps F) (tempo duration : Int) : F :=
  A.mul (A.div (A.lit 60) (A.ofInt tempo)) (A.div (A.lit 4) (A.ofInt duration))

/-- The method `parseNote(code)`. -/
def parseNote {F : Type} (A : DoubleOps F) (p : MusicPlayer F) (code : List Char) :
    Except Exn (Note F) :=
  let note : Note F := { frequency := A.ofInt 0, duration := A.lit (1 / 2), isRest := false }
  if code = [] then .ok { note with isRest := true }
  else if restMarker code then
    if code.length > 1 then
      match stoi (code.drop 1) with
      | .error e => .error e
      | .ok duration =>
        .ok { note with isRest := true, duration := noteSeconds A p.tempo duration }
    else
      .ok { note with isRest := true, duration := A.div (A.lit 60) (A.ofInt p.tempo) }
  else
    let s := scanPitch p.defaultOctave code
    match scanDuration p.defaultDuration s.2.2 with
    | .error e => .error e
    | .ok duration =>
      let fullNote := s.1 ++ to_string s.2.1
      match p.noteFrequencies.find fullNote with
      | some f =>
        .ok { frequency := f, duration := noteSeconds A p.tempo duration, isRest := false }
      | none =>
        .ok { note with isRest := true, duration := noteSeconds A p.tempo duration }

/-- The note names that occur in the keys of the table: the entries of `notes` and
the flat names of the sharp ones. -/
def spelledNames : List (List Char) :=
  notes ++ (notes.filter (fun n => n.length = 2)).map flatNote

/-! ## `MusicPlayer::generateTone` and `MusicPlayer::generateSilence`

A sample buffer `std::vector<int16_t>` is a `List Int`.  Constructing a vector
with a negative `int` size converts the size to a huge `size_t` and raises
`std::length_error`.  The sums and differences of sample counts in the loop are
written without wrap: every count is at most `numSamples`, an `int`, or one of
the envelope lengths computed from `sampleRate`. -/

/-- The method `generateSilence(duration)`. -/
def generateSilence {F : Type} (A : DoubleOps F) (p : MusicPlayer F) (duration : F) :
    Except Exn (List Int) :=
  match A.toInt (A.mul (A.ofInt p.sampleRate) duration) with
  | none => .error .undefined_cast
  | some numSamples =>
    if numSamples < 0 then .error .length_error
    else .ok (List.replicate numSamples.toNat 0)

/-- The value of `sample` after the three sines and the normalisation by `1.4`,
at time `t`. -/
def waveform {F : Type} (A : DoubleOps F) (frequency t : F) : F :=
  let sample := A.sin (A.mul (A.mul (A.mul (A.lit 2) A.pi) frequency) t)
  let sample := A.add sample
    (A.mul (A.lit 0.3) (A.sin (A.mul (A.mul (A.mul (A.lit 4) A.pi) frequency) t)))
  let sample := A.add sample
    (A.mul (A.lit 0.1) (A.sin (A.mul (A.mul (A.mul (A.lit 6) A.pi) frequency) t)))
  A.div sample (A.lit 1.4)

/-- The fade-in/fade-out step: the value of `envelope` after it. -/
def fadeEnvelope {F : Type} (A : DoubleOps F) (numSamples fadeSamples i : Int) : F :=
  if i < fadeSamples then A.div (A.ofInt i) (A.ofInt fadeSamples)
  else if i > numSamples - fadeSamples then A.div (A.ofInt (numSamples - i)) (A.ofInt fadeSamples)
  else A.lit 1

/-- The ADSR step: the value of `envelope` after it, given its value before.
Each of the four branches assigns the variable, so the value before is not
read. -/
def adsrEnvelope {F : Type} (A : DoubleOps F)
    (numSamples attackSamples decaySamples releaseSamples i : Int) (_envelope : F) : F :=
  let sustainLevel := A.lit 0.7
  if i < attackSamples then A.div (A.ofInt i) (A.ofInt attackSamples)
  else if i < attackSamples + decaySamples then
    let decayProgress := A.div (A.ofInt (i - attackSamples)) (A.ofInt decaySamples)
    A.sub (A.lit 1) (A.mul (A.sub (A.lit 1) sustainLevel) decayProgress)
  else if i < numSamples - releaseSamples then sustainLevel
  else
    let releaseProgress :=
      A.div (A.ofInt (i - (numSamples - releaseSamples))) (A.ofInt releaseSamples)
    A.mul sustainLevel (A.sub (A.lit 1) releaseProgress)

/-- One iteration of the loop of `generateTone`: the value stored in `samples[i]`. -/
def toneSample {F : Type} (A : DoubleOps F) (p : MusicPlayer F) (frequency : F)
    (numSamples fadeSamples i : Int) : Except Exn Int :=
  let t := A.div (A.ofInt i) (A.ofInt p.sampleRate)
  let sample := waveform A frequency t
  let envelope := fadeEnvelope A numSamples fadeSamples i
  match A.toInt (A.mul (A.ofInt p.sampleRate) (A.lit 0.05)),
        A.toInt (A.mul (A.ofInt p.sampleRate) (A.lit 0.1)),
        A.toInt (A.mul (A.ofInt p.sampleRate) (A.lit 0.1)) with
  | some attackSamples, some decaySamples, some releaseSamples =>
    let envelope :=
      adsrEnvelope A numSamples attackSamples decaySamples releaseSamples i envelope
    match A.toInt16 (A.mul (A.mul (A.mul sample envelope) (A.ofInt 32767)) (A.lit 0.5)) with
    | some v => .ok v
    | none => .error .undefined_cast
  | _, _, _ => .error .undefined_cast

/-- The method `generateTone(frequency, duration)`. -/
def generateTone {F : Type} (A : DoubleOps F) (p : MusicPlayer F) (frequency duration : F) :
    Except Exn (List Int) :=
  match A.toInt (A.mul (A.ofInt p.sampleRate) duration) with
  | none => .error .undefined_cast
  | some numSamples =>
    if numSamples < 0 then .error .length_error
    else
      match A.toInt (A.mul (A.ofInt p.sampleRate) (A.lit 0.02)) with
      | none => .error .undefined_cast
      | some fadeSamples =>
        (List.range numSamples.toNat).mapM
          (fun i => toneSample A p frequency numSamples fadeSamples (i : Int))

/-! ## `MusicPlayer::writeWav`

The bytes written to the file, each a natural number below 256.  The host is
little-endian, so `file.write(reinterpret_cast<char*>(&x), k)` writes the `k`
low-order bytes of `x`, least significant first. -/

/-- The value of an integer expression stored in an `int`: reduced into
`[-2^31, 2^31)`. -/
def wrap32 (n : Int) : Int := (n + 2147483648) % 4294967296 - 2147483648

/-- The four bytes of an `int` in memory. -/
def le32 (n : Int) : List Nat :=
  let u := (n % 4294967296).toNat
  [u % 256, u / 256 % 256, u / 65536 % 256, u / 16777216 % 256]

/-- The two bytes of an `int16_t` in memory. -/
def le16 (n : Int) : List Nat :=
  let u := (n % 65536).toNat
  [u % 256, u / 256 % 256]

/-- The bytes of a string literal. -/
def ascii (s : List Char) : List Nat := s.map Char.toNat

/-- The method `writeWav(filename, samples)`: the bytes written to the stream.
The last `write` copies the first `dataSize` bytes of the sample array, and
nothing when `dataSize` is not positive. -/
def writeWav {F : Type} (p : MusicPlayer F) (samples : List Int) : List Nat :=
  let dataSize : Int := wrap32 ((samples.length : Int) * 2)
  let fileSize : Int := wrap32 (dataSize + 36)
  let fmtSize : Int := 16
  let audioFormat : Int := 1
  let numChannels : Int := 1
  let byteRate : Int := wrap32 (p.sampleRate * 2)
  let blockAlign : Int := 2
  let bitsPerSample : Int := 16
  ascii ['R', 'I', 'F', 'F'] ++ le32 fileSize ++ ascii ['W', 'A', 'V', 'E']
    ++ ascii ['f', 'm', 't', ' '] ++ le32 fmtSize ++ le16 audioFormat ++ le16 numChannels
    ++ le32 p.sampleRate ++ le32 byteRate ++ le16 blockAlign ++ le16 bitsPerSample
    ++ ascii ['d', 'a', 't', 'a'] ++ le32 dataSize
    ++ ((samples.map le16).flatten).take dataSize.toNat

/-! ## `MusicPlayer::play` -/

/-- The extraction `iss >> noteCode`, repeated to the end of the stream: the
maximal runs of characters that are not white space.  `cur` is the run being
read, latest character first. -/
def splitTokens : List Char → List Char → List (List Char)
  | cur, [] => if cur = [] then [] else [cur.reverse]
  | cur, c :: cs =>
    if isspace c then
      (if cur = [] then splitTokens [] cs else cur.reverse :: splitTokens [] cs)
    else splitTokens (c :: cur) cs

/-- The tokens of a line of music code. -/
def tokens (musicCode : List Char) : List (List Char) := splitTokens [] musicCode

/-- The body of the loop of `play`: the samples appended for one token. -/
def renderToken {F : Type} (A : DoubleOps F) (p : MusicPlayer F) (noteCode : List Char) :
    Except Exn (List Int) :=
  match parseNote A p noteCode with
  | .error e => .error e
  | .ok note =>
    if note.isRest then generateSilence A p note.duration
    else generateTone A p note.frequency note.duration

/-- The loop of `play` over the tokens still to read, `allSamples` being the
buffer accumulated so far. -/
def playLoop {F : Type} (A : DoubleOps F) (p : MusicPlayer F) :
    List (List Char) → List Int → Except Exn (List Int)
  | [], allSamples => .ok allSamples
  | noteCode :: rest, allSamples =>
    match renderToken A p noteCode with
    | .error e => .error e
    | .ok samples => playLoop A p rest (allSamples ++ samples)

/-- The buffer `allSamples` that `play(musicCode)` hands to `writeWav`, or the
exception that leaves `play`. -/
def playSamples {F : Type} (A : DoubleOps F) (p : MusicPlayer F) (musicCode : List Char) :
    Except Exn (List Int) :=
  playLoop A p (tokens musicCode) []

/-- The bytes of the file that `play(musicCode)` writes. -/
def play {F : Type} (A : DoubleOps F) (p : MusicPlayer F) (musicCode : List Char) :
    Except Exn (List Nat) :=
  match playSamples A p musicCode with
  | .error e => .error e
  | .ok allSamples => .ok (writeWav p allSamples)

/-! ## Reading a WAV file back

These definitions are not part of the program: they are the canonical reading
of a RIFF/WAVE file, against which `writeWav` is checked. -/

/-- The unsigned little-endian value of the `k` bytes at offset `off`. -/
def readLE (bytes : List Nat) (off k : Nat) : Nat :=
  ((bytes.drop off).take k).foldr (fun b acc => b + 256 * acc) 0

/-- A 16-bit pattern read as a signed value. -/
def toSigned16 (u : Nat) : Int := if u < 32768 then (u : Int) else (u : Int) - 65536

/-- The little-endian signed 16-bit values of a byte sequence, two bytes each. -/
def readSamples : List Nat → List Int
  | b0 :: b1 :: rest => toSigned16 (b0 + 256 * b1) :: readSamples rest
  | _ => []

/-- The header fields and the samples of a canonical 44-byte-header WAV file. -/
structure WavInfo where
  chunkSize : Nat
  numChannels : Nat
  sampleRate : Nat
  bitsPerSample : Nat
  dataSize : Nat
  samples : List Int
  deriving DecidableEq, Repr

/-- The decoder: the header fields at their canonical offsets, then the data
section. -/
def decodeWav (bytes : List Nat) : WavInfo :=
  { chunkSize := readLE bytes 4 4
    numChannels := readLE bytes 22 2
    sampleRate := readLE bytes 24 4
    bitsPerSample := readLE bytes 34 2
    dataSize := readLE bytes 40 4
    samples := readSamples ((bytes.drop 44).take (readLE bytes 40 4)) }

/-- A token of unknown pitch: it is not empty, does not start with a rest marker,
has no `_` where the duration suffix would start, and the key composed of its
letter, accidental and octave is not bound in the table of the player. -/
def UnknownPitch {F : Type} (p : MusicPlayer F) (code : List Char) : Prop :=
  code ≠ [] ∧ restMarker code = false
    ∧ (scanPitch p.defaultOctave code).2.2.head? ≠ some '_'
    ∧ p.noteFrequencies.find
        ((scanPitch p.defaultOctave code).1 ++ to_string (scanPitch p.defaultOctave code).2.1)
      = none

/-- The value of `envelope` that the loop of `generateTone` multiplies into
sample `i`: the fade step, then the ADSR step on the three envelope lengths as the
loop computes them; `none` when one of these conversions is undefined. -/
def toneEnvelope {F : Type} (A : DoubleOps F) (p : MusicPlayer F)
    (numSamples fadeSamples i : Int) : Option F :=
  match A.toInt (A.mul (A.ofInt p.sampleRate) (A.lit 0.05)),
        A.toInt (A.mul (A.ofInt p.sampleRate) (A.lit 0.1)),
        A.toInt (A.mul (A.ofInt p.sampleRate) (A.lit 0.1)) with
  | some attackSamples, some decaySamples, some releaseSamples =>
    some (adsrEnvelope A numSamples attackSamples decaySamples releaseSamples i
      (fadeEnvelope A numSamples fadeSamples i))
  | _, _, _ => none

/-- The `tempo` command of `main`, for an input line that passed the test
`input.length() >= 6 && input.substr(0, 5) == "tempo"`: `setTempo` of
`std::stoi(input.substr(6))`; when `std::stoi` raises, the handler `catch (...)`
prints a message and the player is left as it was. -/
def tempoCommand {F : Type} (p : MusicPlayer F) (input : List Char) : MusicPlayer F :=
  match stoi (input.drop 6) with
  | .ok bpm => p.setTempo bpm
  | .error _ => p

/-! ## `generateTone` without the fade step

These two definitions are not part of the program: they are `generateTone` and
its loop body with the fade computation (`fadeTime`, `fadeSamples` and the
fade-in/fade-out `if`) deleted, so that `envelope` keeps its initial value `1.0`
up to the ADSR step.  The program is compared with them. -/

/-- The loop body of `generateTone` with the fade step deleted. -/
def toneSampleNoFade {F : Type} (A : DoubleOps F) (p : MusicPlayer F) (frequency : F)
    (numSamples i : Int) : Except Exn Int :=
  let t := A.div (A.ofInt i) (A.ofInt p.sampleRate)
  let sample := waveform A frequency t
  let envelope := A.lit 1
  match A.toInt (A.mul (A.ofInt p.sampleRate) (A.lit 0.05)),
        A.toInt (A.mul (A.ofInt p.sampleRate) (A.lit 0.1)),
        A.toInt (A.mul (A.ofInt p.sampleRate) (A.lit 0.1)) with
  | some attackSamples, some decaySamples, some releaseSamples =>
    let envelope :=
      adsrEnvelope A numSamples attackSamples decaySamples releaseSamples i envelope
    match A.toInt16 (A.mul (A.mul (A.mul sample envelope) (A.ofInt 32767)) (A.lit 0.5)) with
    | some v => .ok v
    | none => .error .undefined_cast
  | _, _, _ => .error .undefined_cast

/-- The method `generateTone` with the fade computation deleted. -/
def generateToneNoFade {F : Type} (A : DoubleOps F) (p : MusicPlayer F)
    (frequency duration : F) : Except Exn (List Int) :=
  match A.toInt (A.mul (A.ofInt p.sampleRate) duration) with
  | none => .error .undefined_cast
  | some numSamples =>
    if numSamples < 0 then .error .length_error
    else
      (List.map Int.ofNat (List.range numSamples.toNat)).mapM
        (fun i => toneSampleNoFade A p frequency numSamples i)

end MusicCode

/-! # `simpleLinkedList.cpp`

The state of a `LinkedList` object is the sequence of the `data` fields of its
nodes, read from `head` along `next`; `head == nullptr` is the empty sequence.
A pointer into the chain is represented by the node it points to and the chain
behind that node. -/

namespace SimpleLinkedList

/-- The state of a `LinkedList`. -/
abbrev LinkedList := List Int

/-- The constructor `LinkedList()`: `head` is `nullptr`. -/
def LinkedList.construct : LinkedList := []

/-- The method `insertAtHead(value)`: the new node points to the old `head`. -/
def insertAtHead (value : Int) (list : LinkedList) : LinkedList := value :: list

/-- The loop of `insertAtTail` with `temp` at a node of data `temp` whose `next`
chain is `rest`: the chain from `temp` once the new node is linked behind the
last node. -/
def insertAtTailLoop (value : Int) : Int → List Int → List Int
  | temp, [] => [temp, value]
  | temp, next :: rest => temp :: insertAtTailLoop value next rest

/-- The method `insertAtTail(value)`. -/
def insertAtTail (value : Int) (list : LinkedList) : LinkedList :=
  match list with
  | [] => [value]
  | head :: rest => insertAtTailLoop value head rest

/-- The search loop of `deleteNode` with `current` at a node of data `current`
whose `next` chain is `rest`, and the unlinking after it: the chain from `current`
afterwards.  The loop advances while `current->next` exists and its data differs
from `value`; when it stops at an existing `current->next`, that node is unlinked. -/
def deleteNodeLoop (value : Int) : Int → List Int → List Int
  | current, [] => [current]
  | current, next :: rest =>
    if next ≠ value then current :: deleteNodeLoop value next rest
    else current :: rest

/-- The method `deleteNode(value)`. -/
def deleteNode (value : Int) (list : LinkedList) : LinkedList :=
  match list with
  | [] => []
  | head :: rest => if head = value then rest else deleteNodeLoop value head rest

/-- The method `search(value)`. -/
def search (value : Int) : LinkedList → Bool
  | [] => false
  | temp :: rest => if temp = value then true else search value rest

/-- The list of `main` after its four insertions. -/
def mainList : LinkedList :=
  insertAtTail 30 (insertAtTail 5 (insertAtHead 20 (insertAtHead 10 LinkedList.construct)))

end SimpleLinkedList

/-! # `gradeUsingMap.cpp` -/

namespace GradeUsingMap

/-- The type `std::map<std::string, int>`, as an association list in which the
binding added last comes first and shadows earlier ones. -/
abbrev GradeMap := List (List Char × Int)

/-- The assignment `m[k] = v`. -/
def GradeMap.assign (m : GradeMap) (k : List Char) (v : Int) : GradeMap := (k, v) :: m

/-- The value bound to `k` in the map, if any. -/
def GradeMap.find : GradeMap → List Char → Option Int
  | [], _ => none
  | (k', v) :: rest, k => if k' = k then some v else GradeMap.find rest k

/-- The data members of `Student`. -/
structure Student where
  studentID : List Char
  studentName : List Char
  studentGrade : GradeMap

/-- The method `addOrUpdateGrade(subjectCode, subjectGrade)`: the value returned
and the state of the student afterwards. -/
def Student.addOrUpdateGrade (s : Student) (subjectCode : List Char) (subjectGrade : Int) :
    Bool × Student :=
  if subjectCode = [] ∨ subjectGrade < 0 ∨ subjectGrade > 100 then (false, s)
  else (true, { s with studentGrade := s.studentGrade.assign subjectCode subjectGrade })

/-- The branch `choice == 1` of `runStudentConsole`, for the subject code and the
grade read from the console: the line printed and the student afterwards. -/
def addGradeChoice (s : Student) (code : List Char) (grade : Int) : List Char × Student :=
  let r := s.addOrUpdateGrade code grade
  (if r.1 then "Saved!\n".toList else "Invalid input.\n".toList, r.2)

end GradeUsingMap

namespace MusicCode

/-- The conversion `static_cast<int>` of the arithmetic `A` truncates toward zero:
`val x` being the real number that the `double` `x` stands for, the result is the
floor of a nonnegative `val x` and the ceiling of a negative one, and the
conversion is undefined when that integer does not fit an `int`.  This is the
C++ rule for every arithmetic, rounded (IEEE-754, `val` the value of the double)
or exact (`val` the identity). -/
def TruncatesToInt {F : Type} (A : DoubleOps F) (val : F → ℝ) : Prop :=
  ∀ x : F, A.toInt x =
    if -2147483649 < val x ∧ val x < 2147483648 then
      some (if 0 ≤ val x then ⌊val x⌋ else ⌈val x⌉)
    else none

/-! ## Facts about the table -/

theorem initStep_map {F : Type} (A : DoubleOps F) (octave i : Nat)
    (m : List (List Char × Nat × Nat)) :
    initStep A octave (m.map (fun e => (e.1, noteFreq A e.2.1 e.2.2))) i
      = (indexStep octave m i).map (fun e => (e.1, noteFreq A e.2.1 e.2.2)) := by
  unfold initStep indexStep FreqMap.assign
  dsimp only
  split <;> rfl

theorem foldl_initStep_map {F : Type} (A : DoubleOps F) (octave : Nat) (is : List Nat) :
    ∀ m : List (List Char × Nat × Nat),
      is.foldl (initStep A octave) (m.map (fun e => (e.1, noteFreq A e.2.1 e.2.2)))
        = (is.foldl (indexStep octave) m).map (fun e => (e.1, noteFreq A e.2.1 e.2.2)) := by
  induction is with
  | nil => intro m; rfl
  | cons i rest ih =>
    intro m
    simp only [List.foldl_cons]
    rw [initStep_map, ih]

theorem foldl_octaves_map {F : Type} (A : DoubleOps F) (os : List Nat) :
    ∀ m : List (List Char × Nat × Nat),
      os.foldl (fun m octave => (List.range 12).foldl (initStep A octave) m)
          (m.map (fun e => (e.1, noteFreq A e.2.1 e.2.2)))
        = (os.foldl (fun m octave => (List.range 12).foldl (indexStep octave) m) m).map
            (fun e => (e.1, noteFreq A e.2.1 e.2.2)) := by
  induction os with
  | nil => intro m; rfl
  | cons o rest ih =>
    intro m
    simp only [List.foldl_cons]
    rw [foldl_initStep_map, ih]

theorem initFrequencies_eq_map {F : Type} (A : DoubleOps F) :
    initFrequencies A = tableIndex.map (fun e => (e.1, noteFreq A e.2.1 e.2.2)) := by
  have h := foldl_octaves_map A (List.range 9) []
  simpa [initFrequencies, tableIndex] using h

theorem find_map {F G : Type} (g : G → F) (m : List (List Char × G)) (k : List Char) :
    FreqMap.find (m.map (fun e => (e.1, g e.2))) k = (FreqMap.find m k).map g := by
  induction m with
  | nil => rfl
  | cons e rest ih =>
    obtain ⟨k', v⟩ := e
    simp only [List.map_cons, FreqMap.find]
    split
    · rfl
    · exact ih

theorem find_tableIndex : ∀ o : Fin 9, ∀ i : Fin 12,
    FreqMap.find tableIndex (notes.getD i.val [] ++ to_string (o.val : Int))
      = some (o.val, i.val) := by
  decide

theorem find_tableIndex_flat : ∀ o : Fin 9, ∀ i : Fin 12,
    (notes.getD i.val []).length = 2 →
    FreqMap.find tableIndex (flatNote (notes.getD i.val []) ++ to_string (o.val : Int))
      = some (o.val, i.val) := by
  decide

/-- The sharp or natural spelling of chromatic index `i` at octave `o` is bound to
the frequency computed for `(o, i)`: no later assignment overwrites it. -/
theorem find_initFrequencies {F : Type} (A : DoubleOps F) (o i : Nat) (ho : o ≤ 8)
    (hi : i < 12) :
    FreqMap.find (initFrequencies A) (notes.getD i [] ++ to_string (o : Int))
      = some (noteFreq A o i) := by
  rw [initFrequencies_eq_map]
  have h := find_map (fun p : Nat × Nat => noteFreq A p.1 p.2) tableIndex
    (notes.getD i [] ++ to_string (o : Int))
  rw [find_tableIndex ⟨o, by omega⟩ ⟨i, hi⟩] at h
  exact h

/-- The flat spelling of a sharp chromatic index `i` at octave `o` is bound to the
frequency computed for `(o, i)`. -/
theorem find_initFrequencies_flat {F : Type} (A : DoubleOps F) (o i : Nat) (ho : o ≤ 8)
    (hi : i < 12) (hs : (notes.getD i []).length = 2) :
    FreqMap.find (initFrequencies A) (flatNote (notes.getD i []) ++ to_string (o : Int))
      = some (noteFreq A o i) := by
  rw [initFrequencies_eq_map]
  have h := find_map (fun p : Nat × Nat => noteFreq A p.1 p.2) tableIndex
    (flatNote (notes.getD i []) ++ to_string (o : Int))
  rw [find_tableIndex_flat ⟨o, by omega⟩ ⟨i, hi⟩ hs] at h
  exact h

/-- There is an exact interpretation of `double` in the real numbers. -/
theorem DoubleOps.exists_exact : ∃ A : DoubleOps ℝ, A.Exact :=
  ⟨{ ofInt := fun n => (n : ℝ)
     lit := fun q => (q : ℝ)
     add := fun x y => x + y
     sub := fun x y => x - y
     mul := fun x y => x * y
     div := fun x y => x / y
     pow := fun x y => x ^ y
     sin := Real.sin
     pi := Real.pi
     toInt := fun x =>
       if -2147483649 < x ∧ x < 2147483648 then some (if 0 ≤ x then ⌊x⌋ else ⌈x⌉) else none
     toInt16 := fun x =>
       if -32769 < x ∧ x < 32768 then some (if 0 ≤ x then ⌊x⌋ else ⌈x⌉) else none },
   ⟨fun _ => rfl, fun _ => rfl, fun _ _ => rfl, fun _ _ => rfl, fun _ _ => rfl,
    fun _ _ _ => rfl, fun _ _ _ => rfl, fun _ => rfl, rfl, fun _ => rfl, fun _ => rfl⟩⟩

/-- In exact arithmetic the frequency of `(octave, i)` is `440 * 2 ^ (s / 12)` for
the semitone distance `s` from A4. -/
theorem noteFreq_exact (A : DoubleOps ℝ) (hA : A.Exact) (o i : Nat) :
    noteFreq A o i = 440 * (2 : ℝ) ^ ((semitones o i : ℝ) / 12) := by
  simp [noteFreq, hA.mul_eq, hA.pow_eq, hA.div_eq, hA.lit_eq, hA.ofInt_eq]

/-! ## C1: the pitch table holds the equal-temperament frequencies -/

/-- C1. For every octave `o` in 0..8 and chromatic index `i` in 0..11 the table
built by `initFrequencies` binds the key `notes[i] ++ to_string o` to the value
`440.0 * pow(2.0, ((o-4)*12 + (i-9)) / 12.0)` computed for that pair; and whenever
the arithmetic satisfies `0 / 12.0 = 0.0`, `pow(2.0, 0.0) = 1.0` and
`440.0 * 1.0 = 440.0` (as IEEE-754 and exact arithmetic do) the key `A4` is bound
to exactly `440.0`. -/
theorem initFrequencies_pitch {F : Type} (A : DoubleOps F) (o i : Nat) (ho : o ≤ 8)
    (hi : i < 12) :
    FreqMap.find (initFrequencies A) (notes.getD i [] ++ to_string (o : Int))
        = some (A.mul (A.lit 440) (A.pow (A.lit 2)
            (A.div (A.ofInt (((o : Int) - 4) * 12 + ((i : Int) - 9))) (A.lit 12))))
      ∧ (A.div (A.ofInt 0) (A.lit 12) = A.lit 0 → A.pow (A.lit 2) (A.lit 0) = A.lit 1 →
          A.mul (A.lit 440) (A.lit 1) = A.lit 440 →
          FreqMap.find (initFrequencies A) ['A', '4'] = some (A.lit 440)) := by
  refine ⟨find_initFrequencies A o i ho hi, fun h0 h1 h2 => ?_⟩
  have h := find_initFrequencies A 4 9 (by decide) (by decide)
  have hk : notes.getD 9 [] ++ to_string ((4 : Nat) : Int) = ['A', '4'] := by decide
  have hs : semitones ((4 : Nat) : Int) ((9 : Nat) : Int) = 0 := by decide
  rw [hk] at h
  rw [h, noteFreq, hs, h0, h1, h2]

/-- C1, at a concrete input: in exact real arithmetic the key `C#4` is bound to
`440 * 2 ^ (-8 / 12)` and the key `A4` to `440`. -/
theorem initFrequencies_pitch_witness :
    ∃ A : DoubleOps ℝ, A.Exact ∧
      FreqMap.find (initFrequencies A) ['C', '#', '4'] = some (440 * (2 : ℝ) ^ ((-8 : ℝ) / 12))
      ∧ FreqMap.find (initFrequencies A) ['A', '4'] = some 440 := by
  obtain ⟨A, hA⟩ := DoubleOps.exists_exact
  have h := initFrequencies_pitch A 4 1 (by decide) (by decide)
  refine ⟨A, hA, ?_, ?_⟩
  · have hk : notes.getD 1 [] ++ to_string ((4 : Nat) : Int) = ['C', '#', '4'] := by decide
    rw [← hk, h.1]
    simp [hA.mul_eq, hA.pow_eq, hA.div_eq, hA.lit_eq, hA.ofInt_eq]
  · have h2 := h.2 (by simp [hA.div_eq, hA.lit_eq, hA.ofInt_eq])
      (by simp [hA.pow_eq, hA.lit_eq]) (by simp [hA.mul_eq, hA.lit_eq])
    rw [h2, hA.lit_eq]
    norm_num

/-! ## C2: enharmonic spellings share one frequency -/

/-- C2. For every octave `o` in 0..8 and every sharp/flat pair (C#,Db), (D#,Eb),
(F#,Gb), (G#,Ab), (A#,Bb) the table holds both spellings at octave `o` and binds
them to the same value. -/
theorem initFrequencies_enharmonic {F : Type} (A : DoubleOps F) (o : Nat) (ho : o ≤ 8)
    (p : List Char × List Char)
    (hp : p ∈ [(['C', '#'], ['D', 'b']), (['D', '#'], ['E', 'b']), (['F', '#'], ['G', 'b']),
               (['G', '#'], ['A', 'b']), (['A', '#'], ['B', 'b'])]) :
    ∃ v : F, FreqMap.find (initFrequencies A) (p.1 ++ to_string (o : Int)) = some v
      ∧ FreqMap.find (initFrequencies A) (p.2 ++ to_string (o : Int)) = some v := by
  simp only [List.mem_cons, List.mem_singleton, List.not_mem_nil, or_false] at hp
  rcases hp with rfl | rfl | rfl | rfl | rfl
  · exact ⟨_, find_initFrequencies A o 1 ho (by decide),
      find_initFrequencies_flat A o 1 ho (by decide) (by decide)⟩
  · exact ⟨_, find_initFrequencies A o 3 ho (by decide),
      find_initFrequencies_flat A o 3 ho (by decide) (by decide)⟩
  · exact ⟨_, find_initFrequencies A o 6 ho (by decide),
      find_initFrequencies_flat A o 6 ho (by decide) (by decide)⟩
  · exact ⟨_, find_initFrequencies A o 8 ho (by decide),
      find_initFrequencies_flat A o 8 ho (by decide) (by decide)⟩
  · exact ⟨_, find_initFrequencies A o 10 ho (by decide),
      find_initFrequencies_flat A o 10 ho (by decide) (by decide)⟩

/-- C2, at a concrete input: in exact real arithmetic `C#4` and `Db4` are both
bound, to the same frequency. -/
theorem initFrequencies_enharmonic_witness :
    ∃ A : DoubleOps ℝ, A.Exact ∧ ∃ v : ℝ,
      FreqMap.find (initFrequencies A) ['C', '#', '4'] = some v
      ∧ FreqMap.find (initFrequencies A) ['D', 'b', '4'] = some v := by
  obtain ⟨A, hA⟩ := DoubleOps.exists_exact
  exact ⟨A, hA, initFrequencies_enharmonic A 4 (by decide) (['C', '#'], ['D', 'b'])
    (by decide)⟩

/-! ## C3: frequency grows with (octave, chromatic index) -/

/-- C3. In exact arithmetic, for octaves `o1, o2` in 0..8 and chromatic indices
`i1, i2` in 0..11 with `(o1, i1)` lexicographically below `(o2, i2)`, the table
frequency of `(o1, i1)` is strictly less than that of `(o2, i2)`. -/
theorem initFrequencies_strictMono (A : DoubleOps ℝ) (hA : A.Exact) (o1 i1 o2 i2 : Nat)
    (ho1 : o1 ≤ 8) (hi1 : i1 < 12) (ho2 : o2 ≤ 8) (hi2 : i2 < 12)
    (hlt : o1 < o2 ∨ (o1 = o2 ∧ i1 < i2)) :
    ∃ f1 f2 : ℝ,
      FreqMap.find (initFrequencies A) (notes.getD i1 [] ++ to_string (o1 : Int)) = some f1
      ∧ FreqMap.find (initFrequencies A) (notes.getD i2 [] ++ to_string (o2 : Int)) = some f2
      ∧ f1 < f2 := by
  refine ⟨_, _, find_initFrequencies A o1 i1 ho1 hi1, find_initFrequencies A o2 i2 ho2 hi2, ?_⟩
  rw [noteFreq_exact A hA, noteFreq_exact A hA]
  have hs : semitones o1 i1 < semitones o2 i2 := by
    unfold semitones
    omega
  have hr : ((semitones o1 i1 : Int) : ℝ) / 12 < ((semitones o2 i2 : Int) : ℝ) / 12 := by
    have : ((semitones o1 i1 : Int) : ℝ) < ((semitones o2 i2 : Int) : ℝ) := by exact_mod_cast hs
    linarith
  have hp := Real.rpow_lt_rpow_of_exponent_lt (by norm_num : (1 : ℝ) < 2) hr
  linarith

/-- C3, at a concrete input: in exact real arithmetic the frequency of `B3` is
strictly below that of `C4`. -/
theorem initFrequencies_strictMono_witness :
    ∃ A : DoubleOps ℝ, A.Exact ∧ ∃ f1 f2 : ℝ,
      FreqMap.find (initFrequencies A) ['B', '3'] = some f1
      ∧ FreqMap.find (initFrequencies A) ['C', '4'] = some f2 ∧ f1 < f2 := by
  obtain ⟨A, hA⟩ := DoubleOps.exists_exact
  exact ⟨A, hA, initFrequencies_strictMono A hA 3 11 4 0 (by decide) (by decide) (by decide)
    (by decide) (Or.inl (by decide))⟩

/-! ## Facts about `std::to_string` and `std::stoi` -/

theorem digitChar_isdigit (k : Nat) (hk : k < 10) :
    isdigit (Nat.digitChar k) = true ∧ (Nat.digitChar k).toNat - 48 = k := by
  interval_cases k <;> decide

/-- The digits written for `n` form a non-empty run of decimal digits whose value,
read from the left, is `n`. -/
theorem toDigitsCore_spec : ∀ fuel n : Nat, ∀ ds : List Char, n < fuel →
    ∃ xs : List Char, Nat.toDigitsCore 10 fuel n ds = xs ++ ds ∧ xs ≠ [] ∧
      (∀ c ∈ xs, isdigit c = true) ∧
      xs.foldl (fun a c => a * 10 + (c.toNat - 48)) 0 = n := by
  intro fuel
  induction fuel with
  | zero => intro n ds h; omega
  | succ fuel ih =>
    intro n ds h
    have hd := digitChar_isdigit (n % 10) (Nat.mod_lt _ (by decide))
    by_cases h0 : n / 10 = 0
    · refine ⟨[Nat.digitChar (n % 10)], ?_, by simp, ?_, ?_⟩
      · simp [Nat.toDigitsCore, h0]
      · intro c hc
        simp only [List.mem_singleton] at hc
        rw [hc]; exact hd.1
      · simp only [List.foldl_cons, List.foldl_nil, hd.2]
        omega
    · obtain ⟨xs, hxs, _, hall, hval⟩ := ih (n / 10) (Nat.digitChar (n % 10) :: ds) (by omega)
      refine ⟨xs ++ [Nat.digitChar (n % 10)], ?_, by simp, ?_, ?_⟩
      · simp [Nat.toDigitsCore, h0, hxs]
      · intro c hc
        rcases List.mem_append.1 hc with hc | hc
        · exact hall c hc
        · simp only [List.mem_singleton] at hc
          rw [hc]; exact hd.1
      · rw [List.foldl_append, hval]
        simp only [List.foldl_cons, List.foldl_nil, hd.2]
        omega

theorem toDigits_spec (n : Nat) :
    ∃ c : Char, ∃ cs : List Char, Nat.toDigits 10 n = c :: cs ∧
      (∀ x ∈ c :: cs, isdigit x = true) ∧
      (c :: cs).foldl (fun a c => a * 10 + (c.toNat - 48)) 0 = n := by
  obtain ⟨xs, hxs, hne, hall, hval⟩ := toDigitsCore_spec (n + 1) n [] (by omega)
  rw [List.append_nil] at hxs
  cases xs with
  | nil => exact absurd rfl hne
  | cons c cs => exact ⟨c, cs, hxs, hall, hval⟩

theorem digitsValue_all (xs : List Char) :
    ∀ acc : Nat, (∀ c ∈ xs, isdigit c = true) →
      digitsValue acc xs = xs.foldl (fun a c => a * 10 + (c.toNat - 48)) acc := by
  induction xs with
  | nil => intro acc _; rfl
  | cons c cs ih =>
    intro acc h
    have hc : isdigit c = true := h c (List.mem_cons_self _ _)
    simp only [digitsValue, hc, if_true, List.foldl_cons]
    exact ih _ (fun x hx => h x (List.mem_cons_of_mem _ hx))

theorem isdigit_not_special (c : Char) (h : isdigit c = true) :
    isspace c = false ∧ c ≠ '-' ∧ c ≠ '+' := by
  have h1 : '0' ≤ c ∧ c ≤ '9' := by simpa [isdigit] using h
  have h2 : 48 ≤ c.toNat ∧ c.toNat ≤ 57 := h1
  refine ⟨?_, ?_, ?_⟩
  · simp only [isspace, Bool.or_eq_false_iff, decide_eq_false_iff_not]
    refine ⟨⟨⟨⟨⟨?_, ?_⟩, ?_⟩, ?_⟩, ?_⟩, ?_⟩ <;>
    · rintro rfl
      revert h2
      decide
  · rintro rfl
    revert h2
    decide
  · rintro rfl
    revert h2
    decide

/-- The function `std::stoi` reads back a run of digits that starts the string. -/
theorem stoi_digits (c : Char) (cs : List Char) (hall : ∀ x ∈ c :: cs, isdigit x = true)
    (n : Nat) (hval : (c :: cs).foldl (fun a c => a * 10 + (c.toNat - 48)) 0 = n)
    (hn : n ≤ 2147483647) : stoi (c :: cs) = .ok (n : Int) := by
  have hc : isdigit c = true := hall c (List.mem_cons_self _ _)
  obtain ⟨hsp, hm, hp⟩ := isdigit_not_special c hc
  have hv : digitsValue 0 (c :: cs) = n := by rw [digitsValue_all _ _ hall, hval]
  have hr : -2147483648 ≤ (n : Int) ∧ (n : Int) ≤ 2147483647 := by omega
  simp only [stoi, List.dropWhile, hsp, hm, hp, if_false, hc, if_true, hv, Bool.false_eq_true,
    hr, and_self]

theorem stoi_neg_digits (c : Char) (cs : List Char)
    (hall : ∀ x ∈ c :: cs, isdigit x = true)
    (n : Nat) (hval : (c :: cs).foldl (fun a c => a * 10 + (c.toNat - 48)) 0 = n)
    (hn : n ≤ 2147483648) : stoi ('-' :: c :: cs) = .ok (-(n : Int)) := by
  have hc : isdigit c = true := hall c (List.mem_cons_self _ _)
  have hv : digitsValue 0 (c :: cs) = n := by rw [digitsValue_all _ _ hall, hval]
  have hr : -2147483648 ≤ -(n : Int) ∧ -(n : Int) ≤ 2147483647 := by omega
  have hs : isspace '-' = false := by decide
  simp only [stoi, List.dropWhile, hs, if_true, hc, hv, hr, and_self]

/-- The function `std::stoi` inverts `std::to_string` on every `int`. -/
theorem stoi_to_string (d : Int) (hlo : -2147483648 ≤ d) (hhi : d ≤ 2147483647) :
    stoi (to_string d) = .ok d := by
  unfold to_string
  by_cases hneg : d < 0
  · obtain ⟨c, cs, hcs, hall, hval⟩ := toDigits_spec d.natAbs
    rw [if_pos hneg, hcs, stoi_neg_digits c cs hall d.natAbs hval (by omega)]
    congr 1
    omega
  · obtain ⟨c, cs, hcs, hall, hval⟩ := toDigits_spec d.toNat
    rw [if_neg hneg, hcs, stoi_digits c cs hall d.toNat hval (by omega)]
    congr 1
    omega

theorem to_string_ne_nil (d : Int) : to_string d ≠ [] := by
  unfold to_string
  by_cases hneg : d < 0
  · rw [if_pos hneg]; exact List.cons_ne_nil _ _
  · obtain ⟨c, cs, hcs, _, _⟩ := toDigits_spec d.toNat
    rw [if_neg hneg, hcs]; exact List.cons_ne_nil _ _

/-! ## Facts about the parser -/

theorem find_mem {G : Type} (m : List (List Char × G)) (k : List Char) (v : G)
    (h : FreqMap.find m k = some v) : (k, v) ∈ m := by
  induction m with
  | nil => simp [FreqMap.find] at h
  | cons e rest ih =>
    obtain ⟨k', v'⟩ := e
    simp only [FreqMap.find] at h
    split at h
    · next hk =>
      simp only [Option.some.injEq] at h
      rw [hk, h]; exact List.mem_cons_self _ _
    · exact List.mem_cons_of_mem _ (ih h)

set_option maxRecDepth 100000 in
theorem tableIndex_keys : ∀ e ∈ tableIndex,
    e.2.1 ≤ 8 ∧ ∃ n ∈ spelledNames, e.1 = n ++ to_string (e.2.1 : Int) := by
  decide

theorem scanPitch_spelled (d0 : Int) (o : Nat) (ho : o ≤ 8) (n : List Char)
    (hn : n ∈ spelledNames) (tail : List Char) :
    n ++ to_string (o : Int) ++ tail ≠ [] ∧ restMarker (n ++ to_string (o : Int) ++ tail) = false
      ∧ scanPitch d0 (n ++ to_string (o : Int) ++ tail) = (n, (o : Int), tail) := by
  have hn' : n = ['C'] ∨ n = ['C', '#'] ∨ n = ['D'] ∨ n = ['D', '#'] ∨ n = ['E'] ∨ n = ['F']
      ∨ n = ['F', '#'] ∨ n = ['G'] ∨ n = ['G', '#'] ∨ n = ['A'] ∨ n = ['A', '#'] ∨ n = ['B']
      ∨ n = ['D', 'b'] ∨ n = ['E', 'b'] ∨ n = ['G', 'b'] ∨ n = ['A', 'b'] ∨ n = ['B', 'b'] := by
    revert n
    decide
  interval_cases o <;>
    rcases hn' with h | h | h | h | h | h | h | h | h | h | h | h | h | h | h | h | h <;>
    subst h <;> exact ⟨by simp [to_string, Nat.toDigits, Nat.toDigitsCore], rfl, rfl⟩

theorem find_initFrequencies_none {F : Type} (A : DoubleOps F) (k : List Char)
    (h : FreqMap.find tableIndex k = none) : FreqMap.find (initFrequencies A) k = none := by
  rw [initFrequencies_eq_map]
  have hm := find_map (fun q : Nat × Nat => noteFreq A q.1 q.2) tableIndex k
  rw [h] at hm
  exact hm

theorem find_initFrequencies_key {F : Type} (A : DoubleOps F) (sp : List Char) (f : F)
    (h : FreqMap.find (initFrequencies A) sp = some f) :
    ∃ o : Nat, o ≤ 8 ∧ ∃ n ∈ spelledNames, sp = n ++ to_string (o : Int) := by
  rw [initFrequencies_eq_map] at h
  have hm := find_map (fun q : Nat × Nat => noteFreq A q.1 q.2) tableIndex sp
  rw [hm] at h
  cases hfi : FreqMap.find tableIndex sp with
  | none => rw [hfi] at h; simp at h
  | some e =>
    have hk := tableIndex_keys (sp, e) (find_mem _ _ _ hfi)
    exact ⟨e.1, hk.1, hk.2⟩

/-- A token that starts with a spelling of the table: the parser reads the
spelling, and what follows decides the duration code. -/
theorem parseNote_spelled {F : Type} (A : DoubleOps F) (p : MusicPlayer F)
    (hp : p.noteFrequencies = initFrequencies A) (sp : List Char) (f : F)
    (hf : FreqMap.find (initFrequencies A) sp = some f) (tail : List Char) :
    parseNote A p (sp ++ tail) =
      match scanDuration p.defaultDuration tail with
      | .error e => .error e
      | .ok d => .ok { frequency := f, duration := noteSeconds A p.tempo d, isRest := false } := by
  obtain ⟨o, ho, n, hn, rfl⟩ := find_initFrequencies_key A sp f hf
  obtain ⟨hne, hrm, hscan⟩ := scanPitch_spelled p.defaultOctave o ho n hn tail
  unfold parseNote
  simp only [hne, hrm, hscan, if_false, Bool.false_eq_true]
  cases scanDuration p.defaultDuration tail with
  | error e => rfl
  | ok d => simp only [hp, hf]

/-- A spelling of the table followed by `_` and the decimal form of an `int`. -/
theorem parseNote_spelled_suffix {F : Type} (A : DoubleOps F) (p : MusicPlayer F)
    (hp : p.noteFrequencies = initFrequencies A) (sp : List Char) (f : F)
    (hf : FreqMap.find (initFrequencies A) sp = some f) (d : Int)
    (hlo : -2147483648 ≤ d) (hhi : d ≤ 2147483647) :
    parseNote A p (sp ++ '_' :: to_string d)
      = .ok { frequency := f, duration := noteSeconds A p.tempo d, isRest := false } := by
  rw [parseNote_spelled A p hp sp f hf]
  simp only [scanDuration, if_true, to_string_ne_nil d, ne_eq, not_false_eq_true,
    stoi_to_string d hlo hhi]

/-- A rest marker followed by the decimal form of an `int`. -/
theorem parseNote_rest_suffix {F : Type} (A : DoubleOps F) (p : MusicPlayer F) (m : Char)
    (hm : m = 'R' ∨ m = 'r' ∨ m = '-') (d : Int)
    (hlo : -2147483648 ≤ d) (hhi : d ≤ 2147483647) :
    parseNote A p (m :: to_string d)
      = .ok { frequency := A.ofInt 0, duration := noteSeconds A p.tempo d, isRest := true } := by
  have hr : restMarker (m :: to_string d) = true := by
    rcases hm with rfl | rfl | rfl <;> rfl
  have hl : (m :: to_string d).length > 1 := by
    have := List.length_pos.2 (to_string_ne_nil d)
    simp only [List.length_cons]
    omega
  unfold parseNote
  simp only [List.cons_ne_nil, if_false, hr, if_true, hl, List.drop_succ_cons, List.drop_zero,
    stoi_to_string d hlo hhi]

/-! ## C4: an explicit duration code -/

/-- C4. For every tempo `t > 0`, every spelling `sp` bound in the pitch table (to
`f`) and every duration code `d` with `1 ≤ d ≤ 2^31 - 1`, `parseNote` of
`sp ++ "_" ++ decimal d` is the Tone of frequency `f` whose duration is
`(60 / t) * (4 / d)`. -/
theorem parseNote_duration_code {F : Type} (A : DoubleOps F) (t : Int) (_ht : 0 < t)
    (sp : List Char) (f : F) (hf : FreqMap.find (initFrequencies A) sp = some f)
    (d : Nat) (_hd1 : 1 ≤ d) (hd2 : d ≤ 2147483647) :
    parseNote A ((MusicPlayer.construct A).setTempo t) (sp ++ '_' :: to_string (d : Int))
      = .ok { frequency := f
              duration := A.mul (A.div (A.lit 60) (A.ofInt t)) (A.div (A.lit 4) (A.ofInt d))
              isRest := false } :=
  parseNote_spelled_suffix A _ rfl sp f hf d (by omega) (by omega)

/-- C4, at a concrete input: in exact real arithmetic at tempo 120 the token
`A4_8` is the Tone of 440 Hz lasting `(60 / 120) * (4 / 8)` seconds. -/
theorem parseNote_duration_code_witness :
    ∃ A : DoubleOps ℝ, A.Exact ∧
      parseNote A ((MusicPlayer.construct A).setTempo 120) "A4_8".toList
        = .ok { frequency := 440, duration := (60 / 120) * (4 / 8), isRest := false } := by
  obtain ⟨A, hA⟩ := DoubleOps.exists_exact
  have hf : FreqMap.find (initFrequencies A) ['A', '4'] = some 440 := by
    have h := find_initFrequencies A 4 9 (by decide) (by decide)
    rw [noteFreq_exact A hA] at h
    have hs : semitones ((4 : Nat) : Int) ((9 : Nat) : Int) = 0 := by decide
    rw [hs] at h
    simpa using h
  have h := parseNote_duration_code A 120 (by decide) ['A', '4'] 440 hf 8 (by decide) (by decide)
  refine ⟨A, hA, ?_⟩
  have hk : "A4_8".toList = ['A', '4'] ++ '_' :: to_string ((8 : Nat) : Int) := by decide
  rw [hk, h]
  simp [hA.mul_eq, hA.div_eq, hA.lit_eq, hA.ofInt_eq]

/-! ## C8: a malformed duration suffix -/

/-- C8, evaluated on the code: for every tempo the tokens `C4_x` and `Rx` make
`parseNote` raise `std::invalid_argument`, and the exception leaves `play`, so
the token `E4` that follows `C4_x` in a score is not rendered. -/
theorem parseNote_malformed_suffix_raises {F : Type} (A : DoubleOps F) (t : Int) :
    parseNote A ((MusicPlayer.construct A).setTempo t) "C4_x".toList
        = .error .invalid_argument
      ∧ parseNote A ((MusicPlayer.construct A).setTempo t) "Rx".toList
        = .error .invalid_argument
      ∧ playSamples A ((MusicPlayer.construct A).setTempo t) "C4_x E4".toList
        = .error .invalid_argument :=
  ⟨rfl, rfl, rfl⟩

/-! ## C9: a zero or negative duration suffix -/

/-- C9, refuted as stated: in exact real arithmetic at tempo 120 the token `C4_-2`
parses to an event of duration `-1`, while `C4` (the suffix removed) has duration
`1/2`; the durations differ and the first is not positive. -/
theorem parseNote_nonpositive_suffix_cex :
    ∃ A : DoubleOps ℝ, A.Exact ∧ ∃ n n0 : Note ℝ,
      parseNote A ((MusicPlayer.construct A).setTempo 120) "C4_-2".toList = .ok n
      ∧ parseNote A ((MusicPlayer.construct A).setTempo 120) "C4".toList = .ok n0
      ∧ n.duration = -1 ∧ n0.duration = 1 / 2
      ∧ n.duration ≠ n0.duration ∧ ¬ (0 < n.duration) := by
  obtain ⟨A, hA⟩ := DoubleOps.exists_exact
  have hf := find_initFrequencies A 4 0 (by decide) (by decide)
  have hk : notes.getD 0 [] ++ to_string ((4 : Nat) : Int) = ['C', '4'] := by decide
  rw [hk] at hf
  have h1 := parseNote_spelled_suffix A ((MusicPlayer.construct A).setTempo 120) rfl
    ['C', '4'] _ hf (-2) (by decide) (by decide)
  have h2 := parseNote_spelled A ((MusicPlayer.construct A).setTempo 120) rfl
    ['C', '4'] _ hf []
  have hk1 : "C4_-2".toList = ['C', '4'] ++ '_' :: to_string (-2) := by decide
  have hk2 : "C4".toList = ['C', '4'] ++ [] := by decide
  have hd1 : noteSeconds A 120 (-2) = -1 := by
    simp [noteSeconds, hA.mul_eq, hA.div_eq, hA.lit_eq, hA.ofInt_eq]
    norm_num
  have hd2 : noteSeconds A 120 4 = 1 / 2 := by
    simp [noteSeconds, hA.mul_eq, hA.div_eq, hA.lit_eq, hA.ofInt_eq]
    norm_num
  refine ⟨A, hA, _, _, hk1 ▸ h1, hk2 ▸ h2, hd1, hd2, ?_, ?_⟩
  · show noteSeconds A 120 (-2) ≠ noteSeconds A 120 4
    rw [hd1, hd2]; norm_num
  · show ¬ (0 < noteSeconds A 120 (-2))
    rw [hd1]; norm_num

/-- C9, amended. `parseNote` has no fallback for a zero or negative duration
suffix: for every tempo `t` and every `int` `d ≤ 0`, a spelling of the table
followed by `_` and the decimal form of `d` parses to the Tone, and a rest marker
followed by the decimal form of `d` to the Rest, whose duration is
`(60 / t) * (4 / d)` computed from the parsed `d` itself. -/
theorem parseNote_nonpositive_suffix {F : Type} (A : DoubleOps F) (t : Int)
    (sp : List Char) (f : F) (hf : FreqMap.find (initFrequencies A) sp = some f)
    (m : Char) (hm : m = 'R' ∨ m = 'r' ∨ m = '-')
    (d : Int) (hd : d ≤ 0) (hlo : -2147483648 ≤ d) :
    parseNote A ((MusicPlayer.construct A).setTempo t) (sp ++ '_' :: to_string d)
        = .ok { frequency := f
                duration := A.mul (A.div (A.lit 60) (A.ofInt t)) (A.div (A.lit 4) (A.ofInt d))
                isRest := false }
      ∧ parseNote A ((MusicPlayer.construct A).setTempo t) (m :: to_string d)
        = .ok { frequency := A.ofInt 0
                duration := A.mul (A.div (A.lit 60) (A.ofInt t)) (A.div (A.lit 4) (A.ofInt d))
                isRest := true } :=
  ⟨parseNote_spelled_suffix A _ rfl sp f hf d hlo (by omega),
   parseNote_rest_suffix A _ m hm d hlo (by omega)⟩

/-- C9 amended, at a concrete input: in exact real arithmetic at tempo 120 the
tokens `C4_-2` and `R-2` both get the duration `(60 / 120) * (4 / -2)`. -/
theorem parseNote_nonpositive_suffix_witness :
    ∃ A : DoubleOps ℝ, A.Exact ∧ ∃ f : ℝ,
      parseNote A ((MusicPlayer.construct A).setTempo 120) "C4_-2".toList
        = .ok { frequency := f, duration := (60 / 120) * (4 / (-2)), isRest := false }
      ∧ parseNote A ((MusicPlayer.construct A).setTempo 120) "R-2".toList
        = .ok { frequency := 0, duration := (60 / 120) * (4 / (-2)), isRest := true } := by
  obtain ⟨A, hA⟩ := DoubleOps.exists_exact
  have hf := find_initFrequencies A 4 0 (by decide) (by decide)
  have hk : notes.getD 0 [] ++ to_string ((4 : Nat) : Int) = ['C', '4'] := by decide
  rw [hk] at hf
  have h := parseNote_nonpositive_suffix A 120 ['C', '4'] _ hf 'R' (Or.inl rfl) (-2)
    (by decide) (by decide)
  have hk1 : "C4_-2".toList = ['C', '4'] ++ '_' :: to_string (-2) := by decide
  have hk2 : "R-2".toList = 'R' :: to_string (-2) := by decide
  refine ⟨A, hA, noteFreq A 4 0, ?_, ?_⟩
  · rw [hk1, h.1]
    simp [hA.mul_eq, hA.div_eq, hA.lit_eq, hA.ofInt_eq]
  · rw [hk2, h.2]
    simp [hA.mul_eq, hA.div_eq, hA.lit_eq, hA.ofInt_eq]

/-! ## C10: an unknown pitch degrades to a rest -/

/-- C10. For every tempo `t > 0` and every token of unknown pitch, `parseNote`
returns (it raises nothing) the Rest whose duration is `(60 / t) * (4 / 4)`; and
over any list of such tokens it returns exactly one such Rest per token. -/
theorem parseNote_unknown_pitch {F : Type} (A : DoubleOps F) (t : Int) (_ht : 0 < t)
    (code : List Char) (h : UnknownPitch ((MusicPlayer.construct A).setTempo t) code) :
    parseNote A ((MusicPlayer.construct A).setTempo t) code
        = .ok { frequency := A.ofInt 0
                duration := A.mul (A.div (A.lit 60) (A.ofInt t)) (A.div (A.lit 4) (A.ofInt 4))
                isRest := true }
      ∧ ∀ toks : List (List Char),
          (∀ tok ∈ toks, UnknownPitch ((MusicPlayer.construct A).setTempo t) tok) →
          toks.mapM (parseNote A ((MusicPlayer.construct A).setTempo t))
            = .ok (List.replicate toks.length
                { frequency := A.ofInt 0
                  duration :=
                    A.mul (A.div (A.lit 60) (A.ofInt t)) (A.div (A.lit 4) (A.ofInt 4))
                  isRest := true }) := by
  have key : ∀ tok : List Char, UnknownPitch ((MusicPlayer.construct A).setTempo t) tok →
      parseNote A ((MusicPlayer.construct A).setTempo t) tok
        = .ok { frequency := A.ofInt 0
                duration := A.mul (A.div (A.lit 60) (A.ofInt t)) (A.div (A.lit 4) (A.ofInt 4))
                isRest := true } := by
    intro tok ⟨hne, hrm, hsuf, hkey⟩
    have hd : scanDuration ((MusicPlayer.construct A).setTempo t).defaultDuration
        (scanPitch ((MusicPlayer.construct A).setTempo t).defaultOctave tok).2.2 = .ok 4 := by
      unfold scanDuration
      split
      · next c tl heq =>
        rw [heq] at hsuf
        have hc : c ≠ '_' := fun hc => hsuf (by rw [hc]; rfl)
        simp only [hc, if_false]
        rfl
      · rfl
    unfold parseNote
    simp only [hne, hrm, if_false, Bool.false_eq_true, hd, hkey]
    rfl
  refine ⟨key code h, ?_⟩
  intro toks
  induction toks with
  | nil => intro _; rfl
  | cons tok rest ih =>
    intro hall
    rw [List.mapM_cons, key tok (hall tok (List.mem_cons_self _ _)),
      ih (fun x hx => hall x (List.mem_cons_of_mem _ hx))]
    rfl

/-- C10, at a concrete input: at tempo 120 the tokens `Z9`, `Cb4` and `E#4` are of
unknown pitch and each parses to a quarter-note Rest. -/
theorem parseNote_unknown_pitch_witness :
    ∃ A : DoubleOps ℝ, A.Exact ∧
      ["Z9".toList, "Cb4".toList, "E#4".toList].mapM
          (parseNote A ((MusicPlayer.construct A).setTempo 120))
        = .ok (List.replicate 3 { frequency := 0, duration := (60 / 120) * (4 / 4), isRest := true })
      := by
  obtain ⟨A, hA⟩ := DoubleOps.exists_exact
  have hz : UnknownPitch ((MusicPlayer.construct A).setTempo 120) "Z9".toList := by
    refine ⟨by decide, by decide, ?_, ?_⟩
    · show (scanPitch 4 "Z9".toList).2.2.head? ≠ some '_'
      decide
    · show FreqMap.find (initFrequencies A)
        ((scanPitch 4 "Z9".toList).1 ++ to_string (scanPitch 4 "Z9".toList).2.1) = none
      exact find_initFrequencies_none A _ (by decide)
  have hc : UnknownPitch ((MusicPlayer.construct A).setTempo 120) "Cb4".toList := by
    refine ⟨by decide, by decide, ?_, ?_⟩
    · show (scanPitch 4 "Cb4".toList).2.2.head? ≠ some '_'
      decide
    · show FreqMap.find (initFrequencies A)
        ((scanPitch 4 "Cb4".toList).1 ++ to_string (scanPitch 4 "Cb4".toList).2.1) = none
      exact find_initFrequencies_none A _ (by decide)
  have he : UnknownPitch ((MusicPlayer.construct A).setTempo 120) "E#4".toList := by
    refine ⟨by decide, by decide, ?_, ?_⟩
    · show (scanPitch 4 "E#4".toList).2.2.head? ≠ some '_'
      decide
    · show FreqMap.find (initFrequencies A)
        ((scanPitch 4 "E#4".toList).1 ++ to_string (scanPitch 4 "E#4".toList).2.1) = none
      exact find_initFrequencies_none A _ (by decide)
  have h := (parseNote_unknown_pitch A 120 (by decide) "Z9".toList hz).2
    ["Z9".toList, "Cb4".toList, "E#4".toList] (by
      intro tok htok
      simp only [List.mem_cons, List.mem_singleton, List.not_mem_nil, or_false] at htok
      rcases htok with rfl | rfl | rfl
      · exact hz
      · exact hc
      · exact he)
  refine ⟨A, hA, ?_⟩
  rw [h]
  simp [hA.mul_eq, hA.div_eq, hA.lit_eq, hA.ofInt_eq]

/-! ## C7: the renderer concatenates in token order -/

theorem splitTokens_append_space (a b : List Char) : ∀ cur : List Char,
    splitTokens cur (a ++ ' ' :: b) = splitTokens cur a ++ splitTokens [] b := by
  induction a with
  | nil =>
    intro cur
    have hs : isspace ' ' = true := by decide
    simp only [List.nil_append, splitTokens, hs, if_true]
    by_cases hc : cur = [] <;> simp [hc]
  | cons c cs ih =>
    intro cur
    simp only [List.cons_append, splitTokens]
    by_cases hsp : isspace c = true
    · simp only [hsp, if_true]
      by_cases hc : cur = []
      · simp only [hc, if_true]; exact ih []
      · simp only [hc, if_false, List.cons_append]
        exact congrArg _ (ih [])
    · simp only [hsp, if_false, Bool.false_eq_true]; exact ih (c :: cur)

theorem tokens_append_space (a b : List Char) :
    tokens (a ++ ' ' :: b) = tokens a ++ tokens b :=
  splitTokens_append_space a b []

/-- Runs of white space separate tokens and produce no empty token. -/
theorem tokens_runs :
    tokens "  C4 \t D4_8   R ".toList = ["C4".toList, "D4_8".toList, "R".toList] := by
  decide

theorem playLoop_append {F : Type} (A : DoubleOps F) (p : MusicPlayer F)
    (ts us : List (List Char)) : ∀ acc : List Int,
    playLoop A p (ts ++ us) acc =
      match playLoop A p ts acc with
      | .error e => .error e
      | .ok x => playLoop A p us x := by
  induction ts with
  | nil => intro acc; rfl
  | cons tok rest ih =>
    intro acc
    simp only [List.cons_append, playLoop]
    cases renderToken A p tok with
    | error e => rfl
    | ok samples => exact ih _

theorem playLoop_acc {F : Type} (A : DoubleOps F) (p : MusicPlayer F)
    (ts : List (List Char)) : ∀ acc : List Int,
    playLoop A p ts acc =
      match playLoop A p ts [] with
      | .error e => .error e
      | .ok x => .ok (acc ++ x) := by
  induction ts with
  | nil => intro acc; simp [playLoop]
  | cons tok rest ih =>
    intro acc
    simp only [playLoop]
    cases renderToken A p tok with
    | error e => rfl
    | ok samples =>
      simp only [List.nil_append]
      rw [ih (acc ++ samples), ih samples]
      cases playLoop A p rest [] with
      | error e => rfl
      | ok x => simp [List.append_assoc]

theorem playLoop_eq_mapM {F : Type} (A : DoubleOps F) (p : MusicPlayer F)
    (ts : List (List Char)) :
    playLoop A p ts [] =
      match ts.mapM (renderToken A p) with
      | .error e => .error e
      | .ok bufs => .ok bufs.flatten := by
  induction ts with
  | nil => rfl
  | cons tok rest ih =>
    rw [List.mapM_cons]
    simp only [playLoop]
    cases renderToken A p tok with
    | error e => rfl
    | ok samples =>
      simp only [List.nil_append]
      rw [playLoop_acc, ih]
      cases List.mapM (renderToken A p) rest with
      | error e => rfl
      | ok bufs => rfl

/-- C7. For a fixed player state (tempo included) and every input line, the buffer
accumulated by `play` is the concatenation, in token order, of the buffers
rendered for the tokens (and an exception raised by a token leaves `play` as it
is); for any two lines `a` and `b` the samples of `a ++ " " ++ b` are those of `a`
followed by those of `b`; and the length of the buffer is the sum of the lengths
of the per-token buffers. -/
theorem playSamples_concat {F : Type} (A : DoubleOps F) (p : MusicPlayer F)
    (a b : List Char) :
    (playSamples A p a =
        match (tokens a).mapM (renderToken A p) with
        | .error e => .error e
        | .ok bufs => .ok bufs.flatten)
      ∧ (playSamples A p (a ++ ' ' :: b) =
        match playSamples A p a with
        | .error e => .error e
        | .ok x =>
          match playSamples A p b with
          | .error e => .error e
          | .ok y => .ok (x ++ y))
      ∧ (∀ all : List Int, playSamples A p a = .ok all →
          ∃ bufs : List (List Int), (tokens a).mapM (renderToken A p) = .ok bufs
            ∧ all = bufs.flatten ∧ all.length = (bufs.map List.length).sum) := by
  refine ⟨playLoop_eq_mapM A p (tokens a), ?_, ?_⟩
  · unfold playSamples
    rw [tokens_append_space, playLoop_append]
    cases playLoop A p (tokens a) [] with
    | error e => rfl
    | ok x => exact playLoop_acc A p (tokens b) x
  · intro all hall
    unfold playSamples at hall
    rw [playLoop_eq_mapM] at hall
    cases hm : List.mapM (renderToken A p) (tokens a) with
    | error e => rw [hm] at hall; simp at hall
    | ok bufs =>
      rw [hm] at hall
      simp only [Except.ok.injEq] at hall
      exact ⟨bufs, rfl, hall.symm, by rw [← hall, List.length_flatten]⟩

/-! ## C5 and C6: the WAV container -/

theorem wrap32_eq (n : Int) (hlo : -2147483648 ≤ n) (hhi : n ≤ 2147483647) : wrap32 n = n := by
  unfold wrap32
  omega

theorem length_flatten_le16 (samples : List Int) :
    ((samples.map le16).flatten).length = 2 * samples.length := by
  induction samples with
  | nil => rfl
  | cons x xs ih =>
    simp only [List.map_cons, List.flatten_cons, List.length_append, ih, List.length_cons]
    simp only [le16, List.length_cons, List.length_nil]
    omega

/-- The bytes written when neither size wraps: the last `write` copies the whole
sample array. -/
theorem writeWav_layout {F : Type} (p : MusicPlayer F) (hp : p.sampleRate = 44100)
    (samples : List Int) (hN : 2 * samples.length + 36 ≤ 2147483647) :
    writeWav p samples =
      ascii ['R', 'I', 'F', 'F'] ++ le32 (36 + 2 * (samples.length : Int))
        ++ ascii ['W', 'A', 'V', 'E'] ++ ascii ['f', 'm', 't', ' '] ++ le32 16 ++ le16 1
        ++ le16 1 ++ le32 44100 ++ le32 88200 ++ le16 2 ++ le16 16
        ++ ascii ['d', 'a', 't', 'a'] ++ le32 (2 * (samples.length : Int))
        ++ (samples.map le16).flatten := by
  have h1 : wrap32 ((samples.length : Int) * 2) = 2 * (samples.length : Int) := by
    rw [wrap32_eq _ (by omega) (by omega)]; ring
  have h2 : wrap32 (2 * (samples.length : Int) + 36) = 36 + 2 * (samples.length : Int) := by
    rw [wrap32_eq _ (by omega) (by omega)]; ring
  have h3 : wrap32 ((44100 : Int) * 2) = 88200 := by decide
  have h4 : (2 * (samples.length : Int)).toNat = 2 * samples.length := by omega
  unfold writeWav
  simp only [h1, h2, hp, h3, h4]
  rw [List.take_of_length_le (by rw [length_flatten_le16])]

theorem le32_natCast (n : Nat) (hn : n < 4294967296) :
    le32 (n : Int) = [n % 256, n / 256 % 256, n / 65536 % 256, n / 16777216 % 256] := by
  have h : ((n : Int) % 4294967296).toNat = n := by omega
  simp only [le32, h]

theorem le16_bytes (x : Int) : le16 x = [(x % 256).toNat, (x / 256 % 256).toNat] := by
  have h1 : (x % 65536).toNat % 256 = (x % 256).toNat := by omega
  have h2 : (x % 65536).toNat / 256 % 256 = (x / 256 % 256).toNat := by omega
  simp only [le16, h1, h2]

/-- C5. For every buffer of `N` 16-bit samples with `2N + 36 ≤ 2^31 - 1` the bytes
written by `writeWav` are `RIFF`, the four little-endian bytes of `36 + 2N`,
`WAVE`, `fmt `, LE32(16), LE16(1), LE16(1), LE32(44100), LE32(88200), LE16(2),
LE16(16), `data`, the four little-endian bytes of `2N`, then every sample as its
low byte and its high byte (two's complement) in buffer order; in all `44 + 2N`
bytes. -/
theorem writeWav_bytes {F : Type} (p : MusicPlayer F) (hp : p.sampleRate = 44100)
    (samples : List Int) (hN : 2 * samples.length + 36 ≤ 2147483647) :
    writeWav p samples =
        [82, 73, 70, 70]
          ++ [(36 + 2 * samples.length) % 256, (36 + 2 * samples.length) / 256 % 256,
              (36 + 2 * samples.length) / 65536 % 256,
              (36 + 2 * samples.length) / 16777216 % 256]
          ++ [87, 65, 86, 69] ++ [102, 109, 116, 32] ++ [16, 0, 0, 0] ++ [1, 0] ++ [1, 0]
          ++ [68, 172, 0, 0] ++ [136, 88, 1, 0] ++ [2, 0] ++ [16, 0] ++ [100, 97, 116, 97]
          ++ [(2 * samples.length) % 256, (2 * samples.length) / 256 % 256,
              (2 * samples.length) / 65536 % 256, (2 * samples.length) / 16777216 % 256]
          ++ (samples.map (fun x => [(x % 256).toNat, (x / 256 % 256).toNat])).flatten
      ∧ (writeWav p samples).length = 44 + 2 * samples.length := by
  have h := writeWav_layout p hp samples hN
  have e1 : le32 (36 + 2 * (samples.length : Int))
      = le32 ((36 + 2 * samples.length : Nat) : Int) := by push_cast; rfl
  have e2 : le32 (2 * (samples.length : Int)) = le32 ((2 * samples.length : Nat) : Int) := by
    push_cast; rfl
  have e3 : samples.map le16
      = samples.map (fun x => [(x % 256).toNat, (x / 256 % 256).toNat]) :=
    List.map_congr_left (fun x _ => le16_bytes x)
  refine ⟨?_, ?_⟩
  · rw [h, e1, e2, e3, le32_natCast _ (by omega), le32_natCast _ (by omega)]
    rfl
  · rw [h]
    simp only [List.length_append, length_flatten_le16]
    simp only [ascii, le32, le16, List.length_map, List.length_cons, List.length_nil]

/-- C5, at a concrete input: the 50 bytes written for the buffer `[1, -2, 300]` by
the player as constructed. -/
theorem writeWav_bytes_witness :
    ∃ A : DoubleOps ℝ, A.Exact ∧
      writeWav (MusicPlayer.construct A) [1, -2, 300]
        = [82, 73, 70, 70, 42, 0, 0, 0, 87, 65, 86, 69, 102, 109, 116, 32, 16, 0, 0, 0, 1, 0,
           1, 0, 68, 172, 0, 0, 136, 88, 1, 0, 2, 0, 16, 0, 100, 97, 116, 97, 6, 0, 0, 0,
           1, 0, 254, 255, 44, 1] := by
  obtain ⟨A, hA⟩ := DoubleOps.exists_exact
  exact ⟨A, hA, (writeWav_bytes (MusicPlayer.construct A) rfl [1, -2, 300] (by decide)).1.trans
    (by decide)⟩

theorem readLE_le32 (pre post : List Nat) (n : Int) (hlo : 0 ≤ n) (hhi : n < 4294967296) :
    readLE (pre ++ le32 n ++ post) pre.length 4 = n.toNat := by
  unfold readLE
  rw [List.append_assoc, List.drop_left]
  simp only [le32, List.cons_append, List.nil_append, List.take_succ_cons, List.take_zero,
    List.foldr_cons, List.foldr_nil]
  omega

theorem readLE_le16 (pre post : List Nat) (n : Int) (hlo : 0 ≤ n) (hhi : n < 65536) :
    readLE (pre ++ le16 n ++ post) pre.length 2 = n.toNat := by
  unfold readLE
  rw [List.append_assoc, List.drop_left]
  simp only [le16, List.cons_append, List.nil_append, List.take_succ_cons, List.take_zero,
    List.foldr_cons, List.foldr_nil]
  omega

theorem readSamples_le16 (samples : List Int)
    (hr : ∀ x ∈ samples, -32768 ≤ x ∧ x ≤ 32767) :
    readSamples ((samples.map le16).flatten) = samples := by
  induction samples with
  | nil => rfl
  | cons x xs ih =>
    have hx := hr x (List.mem_cons_self _ _)
    have ih' := ih (fun y hy => hr y (List.mem_cons_of_mem _ hy))
    have hcons : (List.map le16 (x :: xs)).flatten
        = ((x % 65536).toNat % 256) :: ((x % 65536).toNat / 256 % 256)
            :: (xs.map le16).flatten := rfl
    rw [hcons, readSamples, ih']
    congr 1
    unfold toSigned16
    split <;> omega

/-- C6. Round trip: for every buffer `s` of `N` samples, each within the signed
16-bit range, with `2N + 36 ≤ 2^31 - 1`, decoding the bytes written by `writeWav`
yields `dataSize = 2N`, `sampleRate = 44100`, `numChannels = 1`,
`bitsPerSample = 16` (and `chunkSize = 36 + 2N`) and the sample sequence `s`. -/
theorem decodeWav_writeWav {F : Type} (p : MusicPlayer F) (hp : p.sampleRate = 44100)
    (samples : List Int) (hr : ∀ x ∈ samples, -32768 ≤ x ∧ x ≤ 32767)
    (hN : 2 * samples.length + 36 ≤ 2147483647) :
    decodeWav (writeWav p samples) =
      { chunkSize := 36 + 2 * samples.length
        numChannels := 1
        sampleRate := 44100
        bitsPerSample := 16
        dataSize := 2 * samples.length
        samples := samples } := by
  have h := writeWav_layout p hp samples hN
  have hcs : readLE (writeWav p samples) 4 4 = 36 + 2 * samples.length := by
    rw [h]
    have := readLE_le32 (ascii ['R', 'I', 'F', 'F'])
      (ascii ['W', 'A', 'V', 'E'] ++ ascii ['f', 'm', 't', ' '] ++ le32 16 ++ le16 1
        ++ le16 1 ++ le32 44100 ++ le32 88200 ++ le16 2 ++ le16 16
        ++ ascii ['d', 'a', 't', 'a'] ++ le32 (2 * (samples.length : Int))
        ++ (samples.map le16).flatten)
      (36 + 2 * (samples.length : Int)) (by omega) (by omega)
    simp only [List.append_assoc] at this ⊢
    rw [show (ascii ['R', 'I', 'F', 'F']).length = 4 from rfl] at this
    rw [this]
    omega
  have hds : readLE (writeWav p samples) 40 4 = 2 * samples.length := by
    rw [h]
    have := readLE_le32 (ascii ['R', 'I', 'F', 'F'] ++ le32 (36 + 2 * (samples.length : Int))
        ++ ascii ['W', 'A', 'V', 'E'] ++ ascii ['f', 'm', 't', ' '] ++ le32 16 ++ le16 1
        ++ le16 1 ++ le32 44100 ++ le32 88200 ++ le16 2 ++ le16 16
        ++ ascii ['d', 'a', 't', 'a'])
      ((samples.map le16).flatten) (2 * (samples.length : Int)) (by omega) (by omega)
    rw [show (ascii ['R', 'I', 'F', 'F'] ++ le32 (36 + 2 * (samples.length : Int))
        ++ ascii ['W', 'A', 'V', 'E'] ++ ascii ['f', 'm', 't', ' '] ++ le32 16 ++ le16 1
        ++ le16 1 ++ le32 44100 ++ le32 88200 ++ le16 2 ++ le16 16
        ++ ascii ['d', 'a', 't', 'a']).length = 40 from rfl] at this
    rw [this]
    omega
  have hnc : readLE (writeWav p samples) 22 2 = 1 := by
    rw [h]
    have := readLE_le16 (ascii ['R', 'I', 'F', 'F'] ++ le32 (36 + 2 * (samples.length : Int))
        ++ ascii ['W', 'A', 'V', 'E'] ++ ascii ['f', 'm', 't', ' '] ++ le32 16 ++ le16 1)
      (le32 44100 ++ le32 88200 ++ le16 2 ++ le16 16
        ++ ascii ['d', 'a', 't', 'a'] ++ le32 (2 * (samples.length : Int))
        ++ (samples.map le16).flatten) 1 (by decide) (by decide)
    rw [show (ascii ['R', 'I', 'F', 'F'] ++ le32 (36 + 2 * (samples.length : Int))
        ++ ascii ['W', 'A', 'V', 'E'] ++ ascii ['f', 'm', 't', ' '] ++ le32 16
        ++ le16 1).length = 22 from rfl] at this
    simp only [List.append_assoc] at this ⊢
    rw [this]
    rfl
  have hsr : readLE (writeWav p samples) 24 4 = 44100 := by
    rw [h]
    have := readLE_le32 (ascii ['R', 'I', 'F', 'F'] ++ le32 (36 + 2 * (samples.length : Int))
        ++ ascii ['W', 'A', 'V', 'E'] ++ ascii ['f', 'm', 't', ' '] ++ le32 16 ++ le16 1
        ++ le16 1)
      (le32 88200 ++ le16 2 ++ le16 16
        ++ ascii ['d', 'a', 't', 'a'] ++ le32 (2 * (samples.length : Int))
        ++ (samples.map le16).flatten) 44100 (by decide) (by decide)
    rw [show (ascii ['R', 'I', 'F', 'F'] ++ le32 (36 + 2 * (samples.length : Int))
        ++ ascii ['W', 'A', 'V', 'E'] ++ ascii ['f', 'm', 't', ' '] ++ le32 16 ++ le16 1
        ++ le16 1).length = 24 from rfl] at this
    simp only [List.append_assoc] at this ⊢
    rw [this]
    rfl
  have hbp : readLE (writeWav p samples) 34 2 = 16 := by
    rw [h]
    have := readLE_le16 (ascii ['R', 'I', 'F', 'F'] ++ le32 (36 + 2 * (samples.length : Int))
        ++ ascii ['W', 'A', 'V', 'E'] ++ ascii ['f', 'm', 't', ' '] ++ le32 16 ++ le16 1
        ++ le16 1 ++ le32 44100 ++ le32 88200 ++ le16 2)
      (ascii ['d', 'a', 't', 'a'] ++ le32 (2 * (samples.length : Int))
        ++ (samples.map le16).flatten) 16 (by decide) (by decide)
    rw [show (ascii ['R', 'I', 'F', 'F'] ++ le32 (36 + 2 * (samples.length : Int))
        ++ ascii ['W', 'A', 'V', 'E'] ++ ascii ['f', 'm', 't', ' '] ++ le32 16 ++ le16 1
        ++ le16 1 ++ le32 44100 ++ le32 88200 ++ le16 2).length = 34 from rfl] at this
    simp only [List.append_assoc] at this ⊢
    rw [this]
    rfl
  have hdata : (writeWav p samples).drop 44 = (samples.map le16).flatten := by
    rw [h]
    exact List.drop_left' rfl
  unfold decodeWav
  rw [hcs, hds, hnc, hsr, hbp, hdata,
    List.take_of_length_le (by rw [length_flatten_le16]), readSamples_le16 samples hr]

/-- C6, at a concrete input: the buffer `[1, -2, 300, -32768, 32767]` is read back
from the bytes written for it. -/
theorem decodeWav_writeWav_witness :
    ∃ A : DoubleOps ℝ, A.Exact ∧
      decodeWav (writeWav (MusicPlayer.construct A) [1, -2, 300, -32768, 32767]) =
        { chunkSize := 46, numChannels := 1, sampleRate := 44100, bitsPerSample := 16,
          dataSize := 10, samples := [1, -2, 300, -32768, 32767] } := by
  obtain ⟨A, hA⟩ := DoubleOps.exists_exact
  exact ⟨A, hA, decodeWav_writeWav (MusicPlayer.construct A) rfl [1, -2, 300, -32768, 32767]
    (by decide) (by decide)⟩

/-! ## Facts about the synthesiser in exact arithmetic -/

theorem toneSample_eq {F : Type} (A : DoubleOps F) (p : MusicPlayer F) (frequency : F)
    (numSamples fadeSamples i : Int) :
    toneSample A p frequency numSamples fadeSamples i =
      match toneEnvelope A p numSamples fadeSamples i with
      | none => .error .undefined_cast
      | some envelope =>
        match A.toInt16 (A.mul (A.mul (A.mul
            (waveform A frequency (A.div (A.ofInt i) (A.ofInt p.sampleRate))) envelope)
            (A.ofInt 32767)) (A.lit 0.5)) with
        | some v => .ok v
        | none => .error .undefined_cast := by
  unfold toneSample toneEnvelope
  cases A.toInt (A.mul (A.ofInt p.sampleRate) (A.lit 0.05)) <;>
    cases A.toInt (A.mul (A.ofInt p.sampleRate) (A.lit 0.1)) <;> rfl

theorem toInt_exact_nonneg (A : DoubleOps ℝ) (hA : A.Exact) (x : ℝ) (h0 : 0 ≤ x)
    (h1 : x < 2147483648) : A.toInt x = some ⌊x⌋ := by
  rw [hA.toInt_eq]
  have hr : -2147483649 < x ∧ x < 2147483648 := ⟨by linarith, h1⟩
  simp only [hr, and_self, if_true, h0]

theorem toInt_exact_natCast (A : DoubleOps ℝ) (hA : A.Exact) (k : Nat) (hk : k < 2147483648) :
    A.toInt (k : ℝ) = some (k : Int) := by
  rw [toInt_exact_nonneg A hA _ (Nat.cast_nonneg k) (by exact_mod_cast hk)]
  simp

theorem sampleCounts_exact (A : DoubleOps ℝ) (hA : A.Exact) :
    A.toInt (A.mul (A.ofInt 44100) (A.lit 0.05)) = some 2205
      ∧ A.toInt (A.mul (A.ofInt 44100) (A.lit 0.1)) = some 4410
      ∧ A.toInt (A.mul (A.ofInt 44100) (A.lit 0.02)) = some 882 := by
  have e1 : A.mul (A.ofInt 44100) (A.lit 0.05) = ((2205 : Nat) : ℝ) := by
    rw [hA.mul_eq, hA.ofInt_eq, hA.lit_eq]; push_cast; norm_num
  have e2 : A.mul (A.ofInt 44100) (A.lit 0.1) = ((4410 : Nat) : ℝ) := by
    rw [hA.mul_eq, hA.ofInt_eq, hA.lit_eq]; push_cast; norm_num
  have e3 : A.mul (A.ofInt 44100) (A.lit 0.02) = ((882 : Nat) : ℝ) := by
    rw [hA.mul_eq, hA.ofInt_eq, hA.lit_eq]; push_cast; norm_num
  rw [e1, e2, e3]
  exact ⟨toInt_exact_natCast A hA 2205 (by decide), toInt_exact_natCast A hA 4410 (by decide),
    toInt_exact_natCast A hA 882 (by decide)⟩

/-- In exact arithmetic, at sample rate 44100, the envelope of sample `i` is the
ADSR step on the lengths 2205, 4410 and 4410. -/
theorem toneEnvelope_exact (A : DoubleOps ℝ) (hA : A.Exact) (p : MusicPlayer ℝ)
    (hp : p.sampleRate = 44100) (n fade i : Int) :
    toneEnvelope A p n fade i
      = some (adsrEnvelope A n 2205 4410 4410 i (fadeEnvelope A n fade i)) := by
  obtain ⟨h1, h2, _⟩ := sampleCounts_exact A hA
  unfold toneEnvelope
  rw [hp, h1, h2]

/-- The four branches of the ADSR step, in exact arithmetic. -/
theorem adsrEnvelope_exact (A : DoubleOps ℝ) (hA : A.Exact) (n i : Int) (e : ℝ) :
    adsrEnvelope A n 2205 4410 4410 i e =
      if i < 2205 then (i : ℝ) / 2205
      else if i < 6615 then 1 - (1 - 0.7) * (((i : ℝ) - 2205) / 4410)
      else if i < n - 4410 then 0.7
      else 0.7 * (1 - ((i : ℝ) - ((n : ℝ) - 4410)) / 4410) := by
  unfold adsrEnvelope
  have h6615 : (2205 : Int) + 4410 = 6615 := by norm_num
  simp only [h6615]
  split_ifs <;> simp [hA.mul_eq, hA.sub_eq, hA.div_eq, hA.lit_eq, hA.ofInt_eq]

/-- In exact arithmetic the envelope of every sample of a tone lies in `[0, 1]`. -/
theorem adsrEnvelope_bounds (A : DoubleOps ℝ) (hA : A.Exact) (n i : Int) (e : ℝ)
    (h0 : 0 ≤ i) (hn : i < n) :
    0 ≤ adsrEnvelope A n 2205 4410 4410 i e ∧ adsrEnvelope A n 2205 4410 4410 i e ≤ 1 := by
  rw [adsrEnvelope_exact A hA]
  have hi0 : (0 : ℝ) ≤ (i : ℝ) := by exact_mod_cast h0
  have hin : (i : ℝ) < (n : ℝ) := by exact_mod_cast hn
  split_ifs with h1 h2 h3
  · have : (i : ℝ) < 2205 := by exact_mod_cast h1
    constructor
    · positivity
    · rw [div_le_one (by norm_num)]; linarith
  · have ha : (2205 : ℝ) ≤ (i : ℝ) := by exact_mod_cast (not_lt.1 h1)
    have hb : (i : ℝ) < 6615 := by exact_mod_cast h2
    have hq0 : 0 ≤ ((i : ℝ) - 2205) / 4410 := div_nonneg (by linarith) (by norm_num)
    have hq1 : ((i : ℝ) - 2205) / 4410 ≤ 1 := by
      rw [div_le_one (by norm_num)]; linarith
    constructor <;> nlinarith
  · constructor <;> norm_num
  · have hc : (n : ℝ) - 4410 ≤ (i : ℝ) := by exact_mod_cast (not_lt.1 h3)
    have hq0 : 0 ≤ ((i : ℝ) - ((n : ℝ) - 4410)) / 4410 := div_nonneg (by linarith) (by norm_num)
    have hq1 : ((i : ℝ) - ((n : ℝ) - 4410)) / 4410 ≤ 1 := by
      rw [div_le_one (by norm_num)]; linarith
    constructor <;> nlinarith

/-- In exact arithmetic the normalised waveform lies in `[-1, 1]`. -/
theorem waveform_abs_le_one (A : DoubleOps ℝ) (hA : A.Exact) (f t : ℝ) :
    |waveform A f t| ≤ 1 := by
  unfold waveform
  simp only [hA.sin_eq, hA.mul_eq, hA.add_eq, hA.lit_eq, hA.pi_eq]
  rw [hA.div_eq _ _ (by push_cast; norm_num)]
  have key : ∀ a b c : ℝ, -1 ≤ a → a ≤ 1 → -1 ≤ b → b ≤ 1 → -1 ≤ c → c ≤ 1 →
      |(a + ((0.3 : ℚ) : ℝ) * b + ((0.1 : ℚ) : ℝ) * c) / ((1.4 : ℚ) : ℝ)| ≤ 1 := by
    intro a b c ha ha' hb hb' hc hc'
    have e3 : ((0.3 : ℚ) : ℝ) = 3 / 10 := by push_cast; norm_num
    have e1 : ((0.1 : ℚ) : ℝ) = 1 / 10 := by push_cast; norm_num
    have e4 : ((1.4 : ℚ) : ℝ) = 14 / 10 := by push_cast; norm_num
    rw [e3, e1, e4, abs_le]
    constructor
    · rw [le_div_iff₀ (by norm_num)]; linarith
    · rw [div_le_iff₀ (by norm_num)]; linarith
  exact key _ _ _ (Real.neg_one_le_sin _) (Real.sin_le_one _) (Real.neg_one_le_sin _)
    (Real.sin_le_one _) (Real.neg_one_le_sin _) (Real.sin_le_one _)

/-- The product `sample * envelope * 32767 * 0.5` of a waveform value in `[-1, 1]`
and an envelope in `[0, 1]` has magnitude at most `16383.5`. -/
theorem scaled_abs_le (w e : ℝ) (hw : |w| ≤ 1) (he0 : 0 ≤ e) (he1 : e ≤ 1) :
    |w * e * 32767 * 0.5| ≤ 16383.5 := by
  have hwe : |w * e| ≤ 1 := by
    rw [abs_mul, abs_of_nonneg he0]
    calc |w| * e ≤ 1 * 1 := mul_le_mul hw he1 he0 (by norm_num)
      _ = 1 := by norm_num
  have h := abs_le.1 hwe
  rw [abs_le]
  constructor <;> nlinarith [h.1, h.2]

/-- The conversion to `int16_t` of a value of magnitude at most `16383.5` is
defined, with a result of magnitude at most `16383`. -/
theorem toInt16_exact_small (A : DoubleOps ℝ) (hA : A.Exact) (x : ℝ) (hx : |x| ≤ 16383.5) :
    ∃ v : Int, A.toInt16 x = some v ∧ -16383 ≤ v ∧ v ≤ 16383 := by
  have h := abs_le.1 hx
  rw [hA.toInt16_eq]
  have hr : -32769 < x ∧ x < 32768 := ⟨by linarith [h.1], by linarith [h.2]⟩
  simp only [hr, and_self, if_true]
  refine ⟨_, rfl, ?_, ?_⟩
  · split_ifs with h0
    · have : (0 : Int) ≤ ⌊x⌋ := Int.floor_nonneg.2 h0
      omega
    · rw [Int.le_ceil_iff]
      push_cast
      linarith [h.1]
  · split_ifs with h0
    · rw [← Int.lt_add_one_iff, Int.floor_lt]
      push_cast
      linarith [h.2]
    · have : ⌈x⌉ ≤ 0 := Int.ceil_le.2 (by push_cast; linarith [not_le.1 h0])
      omega

/-- In exact arithmetic every sample of a tone is computed without an undefined
conversion and has magnitude at most `16383`. -/
theorem toneSample_exact (A : DoubleOps ℝ) (hA : A.Exact) (p : MusicPlayer ℝ)
    (hp : p.sampleRate = 44100) (f : ℝ) (n fade i : Int) (h0 : 0 ≤ i) (hn : i < n) :
    ∃ v : Int, toneSample A p f n fade i = .ok v ∧ -16383 ≤ v ∧ v ≤ 16383 := by
  obtain ⟨he0, he1⟩ := adsrEnvelope_bounds A hA n i (fadeEnvelope A n fade i) h0 hn
  have hw := waveform_abs_le_one A hA f (A.div (A.ofInt i) (A.ofInt p.sampleRate))
  have hx := scaled_abs_le _ _ hw he0 he1
  have e : A.mul (A.mul (A.mul (waveform A f (A.div (A.ofInt i) (A.ofInt p.sampleRate)))
        (adsrEnvelope A n 2205 4410 4410 i (fadeEnvelope A n fade i))) (A.ofInt 32767))
        (A.lit 0.5)
      = waveform A f (A.div (A.ofInt i) (A.ofInt p.sampleRate))
          * adsrEnvelope A n 2205 4410 4410 i (fadeEnvelope A n fade i) * 32767 * 0.5 := by
    rw [hA.mul_eq, hA.mul_eq, hA.mul_eq, hA.ofInt_eq 32767, hA.lit_eq]
    push_cast
    norm_num
  obtain ⟨v, hv, hlo, hhi⟩ := toInt16_exact_small A hA _ hx
  refine ⟨v, ?_, hlo, hhi⟩
  rw [toneSample_eq, toneEnvelope_exact A hA p hp]
  simp only [e, hv]

theorem mapM_ok_of_forall {α β : Type} (f : α → Except Exn β) (P : β → Prop) (l : List α)
    (h : ∀ x ∈ l, ∃ v, f x = .ok v ∧ P v) :
    ∃ vs : List β, l.mapM f = .ok vs ∧ vs.length = l.length ∧ ∀ v ∈ vs, P v := by
  induction l with
  | nil => exact ⟨[], rfl, rfl, fun v hv => absurd hv (List.not_mem_nil v)⟩
  | cons x xs ih =>
    obtain ⟨v, hv, hpv⟩ := h x (List.mem_cons_self _ _)
    obtain ⟨vs, hvs, hlen, hall⟩ := ih (fun y hy => h y (List.mem_cons_of_mem _ hy))
    refine ⟨v :: vs, ?_, by simp [hlen], ?_⟩
    · rw [List.mapM_cons, hv, hvs]; rfl
    · intro w hw
      rcases List.mem_cons.1 hw with rfl | hw
      · exact hpv
      · exact hall w hw

/-- In exact arithmetic `generateSilence(d)` returns `⌊44100 * d⌋` zero samples. -/
theorem generateSilence_exact (A : DoubleOps ℝ) (hA : A.Exact) (p : MusicPlayer ℝ)
    (hp : p.sampleRate = 44100) (d : ℝ) (h0 : 0 ≤ 44100 * d) (h1 : 44100 * d < 2147483648) :
    generateSilence A p d = .ok (List.replicate ⌊44100 * d⌋.toNat 0) := by
  have e : A.mul (A.ofInt p.sampleRate) d = 44100 * d := by
    rw [hp, hA.mul_eq, hA.ofInt_eq]; push_cast; rfl
  have hf : ¬ (⌊44100 * d⌋ < 0) := not_lt.2 (Int.floor_nonneg.2 h0)
  unfold generateSilence
  rw [e, toInt_exact_nonneg A hA _ h0 h1]
  simp only [hf, if_false]

/-- The indices `0, 1, ..., k - 1` of the loop of `generateTone`, as `int` values. -/
theorem castRange_eq (k : Nat) :
    (do let a ← List.range k; pure (a : Int) : List Int) = List.map Int.ofNat (List.range k) :=
  List.flatMap_pure_eq_map Int.ofNat (List.range k)

/-- In exact arithmetic `generateTone(f, d)` returns `⌊44100 * d⌋` samples, each of
magnitude at most `16383`. -/
theorem generateTone_exact (A : DoubleOps ℝ) (hA : A.Exact) (p : MusicPlayer ℝ)
    (hp : p.sampleRate = 44100) (f d : ℝ) (h0 : 0 ≤ 44100 * d)
    (h1 : 44100 * d < 2147483648) :
    ∃ buf : List Int, generateTone A p f d = .ok buf ∧ buf.length = ⌊44100 * d⌋.toNat
      ∧ ∀ v ∈ buf, -16383 ≤ v ∧ v ≤ 16383 := by
  have e : A.mul (A.ofInt p.sampleRate) d = 44100 * d := by
    rw [hp, hA.mul_eq, hA.ofInt_eq]; push_cast; rfl
  have hfl : 0 ≤ ⌊44100 * d⌋ := Int.floor_nonneg.2 h0
  have hf : ¬ (⌊44100 * d⌋ < 0) := not_lt.2 hfl
  obtain ⟨_, _, h882⟩ := sampleCounts_exact A hA
  obtain ⟨buf, hbuf, hlen, hall⟩ := mapM_ok_of_forall
    (fun i : Int => toneSample A p f ⌊44100 * d⌋ 882 i)
    (fun v => -16383 ≤ v ∧ v ≤ 16383) (List.map Int.ofNat (List.range ⌊44100 * d⌋.toNat)) (by
      intro i hi
      obtain ⟨k, hk, rfl⟩ := List.mem_map.1 hi
      have hk' : k < ⌊44100 * d⌋.toNat := List.mem_range.1 hk
      exact toneSample_exact A hA p hp f _ 882 _ (Int.ofNat_nonneg k)
        (by have : Int.ofNat k = (k : Int) := rfl
            omega))
  refine ⟨buf, ?_, by rw [hlen, List.length_map, List.length_range], hall⟩
  unfold generateTone
  rw [e, toInt_exact_nonneg A hA _ h0 h1]
  simp only [hf, if_false]
  rw [hp, h882]
  simp only [castRange_eq]
  exact hbuf

theorem find_A4_exact (A : DoubleOps ℝ) (hA : A.Exact) :
    FreqMap.find (initFrequencies A) ['A', '4'] = some 440 := by
  have h := find_initFrequencies A 4 9 (by decide) (by decide)
  rw [noteFreq_exact A hA] at h
  have hs : semitones ((4 : Nat) : Int) ((9 : Nat) : Int) = 0 := by decide
  rw [hs] at h
  simpa using h

theorem noteSeconds_exact (A : DoubleOps ℝ) (hA : A.Exact) (t d : Int) (ht : t ≠ 0)
    (hd : d ≠ 0) : noteSeconds A t d = (60 / (t : ℝ)) * (4 / (d : ℝ)) := by
  have ht' : (t : ℝ) ≠ 0 := by exact_mod_cast ht
  have hd' : (d : ℝ) ≠ 0 := by exact_mod_cast hd
  unfold noteSeconds
  rw [hA.mul_eq, hA.ofInt_eq, hA.ofInt_eq, hA.div_eq _ _ ht', hA.div_eq _ _ hd', hA.lit_eq,
    hA.lit_eq]
  push_cast
  rfl

theorem floor_natCast_mul (k : Nat) (d : ℝ) (n : Nat) (h : (k : ℝ) * d = (n : ℝ)) :
    ⌊(k : ℝ) * d⌋.toNat = n := by
  rw [h, Int.floor_natCast, Int.toNat_natCast]

/-! ## C11: a rest followed by a tone -/

/-- C11, evaluated on the code: for every arithmetic, at tempo 60 the token `R_4`
makes `parseNote` raise `std::invalid_argument` (after the rest marker `std::stoi`
is given `_4`), and the exception leaves `play`: rendering `R_4 A4_4` yields no
buffer, and the token `A4_4` is never rendered. -/
theorem playSamples_rest_underscore_raises {F : Type} (A : DoubleOps F) :
    stoi "_4".toList = .error .invalid_argument
      ∧ parseNote A ((MusicPlayer.construct A).setTempo 60) "R_4".toList
        = .error .invalid_argument
      ∧ tokens "R_4 A4_4".toList = ["R_4".toList, "A4_4".toList]
      ∧ playSamples A ((MusicPlayer.construct A).setTempo 60) "R_4 A4_4".toList
        = .error .invalid_argument
      ∧ play A ((MusicPlayer.construct A).setTempo 60) "R_4 A4_4".toList
        = .error .invalid_argument :=
  ⟨rfl, rfl, by decide, rfl, rfl⟩

/-- The same score with the rest written `R4`, marker then digits, as the rest
branch of `parseNote` reads it.  In exact arithmetic, rendering `R4 A4_4` at tempo
60 yields a Rest of 1 s, rendered as 44100 samples of value 0, followed by a Tone
of 1 s at 440 Hz: the buffer has 88200 samples and its first 44100 samples are
all zero. -/
theorem playSamples_rest_then_tone (A : DoubleOps ℝ) (hA : A.Exact) :
    parseNote A ((MusicPlayer.construct A).setTempo 60) "R4".toList
        = .ok { frequency := 0, duration := 1, isRest := true }
      ∧ parseNote A ((MusicPlayer.construct A).setTempo 60) "A4_4".toList
        = .ok { frequency := 440, duration := 1, isRest := false }
      ∧ ∃ tone : List Int,
          generateTone A ((MusicPlayer.construct A).setTempo 60) 440 1 = .ok tone
          ∧ playSamples A ((MusicPlayer.construct A).setTempo 60) "R4 A4_4".toList
            = .ok (List.replicate 44100 0 ++ tone)
          ∧ (List.replicate 44100 (0 : Int) ++ tone).length = 88200
          ∧ (List.replicate 44100 (0 : Int) ++ tone).take 44100 = List.replicate 44100 0 := by
  have hsec : noteSeconds A 60 4 = 1 := by
    rw [noteSeconds_exact A hA 60 4 (by decide) (by decide)]; norm_num
  have hr : parseNote A ((MusicPlayer.construct A).setTempo 60) "R4".toList
      = .ok { frequency := 0, duration := 1, isRest := true } := by
    have h := parseNote_rest_suffix A ((MusicPlayer.construct A).setTempo 60) 'R' (Or.inl rfl) 4
      (by decide) (by decide)
    have hk : "R4".toList = 'R' :: to_string 4 := by decide
    rw [hk, h]
    show Except.ok
      ({ frequency := A.ofInt 0, duration := noteSeconds A 60 4, isRest := true } : Note ℝ) = _
    rw [hsec, hA.ofInt_eq]
    norm_num
  have ht : parseNote A ((MusicPlayer.construct A).setTempo 60) "A4_4".toList
      = .ok { frequency := 440, duration := 1, isRest := false } := by
    have h := parseNote_spelled_suffix A ((MusicPlayer.construct A).setTempo 60) rfl
      ['A', '4'] 440 (find_A4_exact A hA) 4 (by decide) (by decide)
    have hk : "A4_4".toList = ['A', '4'] ++ '_' :: to_string 4 := by decide
    rw [hk, h]
    show Except.ok
      ({ frequency := 440, duration := noteSeconds A 60 4, isRest := false } : Note ℝ) = _
    rw [hsec]
  obtain ⟨tone, htone, hlen, _⟩ := generateTone_exact A hA
    ((MusicPlayer.construct A).setTempo 60) rfl 440 1 (by norm_num) (by norm_num)
  have hfl : ⌊(44100 : ℝ) * 1⌋.toNat = 44100 :=
    floor_natCast_mul 44100 1 44100 (by norm_num)
  have hsil : generateSilence A ((MusicPlayer.construct A).setTempo 60) 1
      = .ok (List.replicate 44100 0) := by
    rw [generateSilence_exact A hA _ rfl 1 (by norm_num) (by norm_num), hfl]
  rw [hfl] at hlen
  refine ⟨hr, ht, tone, htone, ?_, ?_, ?_⟩
  · have htok : tokens "R4 A4_4".toList = ["R4".toList, "A4_4".toList] := by decide
    unfold playSamples
    rw [htok]
    simp only [playLoop, renderToken, hr, ht, hsil, htone, if_true, List.nil_append,
      Bool.false_eq_true, if_false]
  · rw [List.length_append, List.length_replicate, hlen]
  · rw [List.take_left' (List.length_replicate _ _)]

/-- At the exact interpretation, the buffer rendered for `R4 A4_4` at tempo 60 has
88200 samples and starts with 44100 zeros. -/
theorem playSamples_rest_then_tone_witness :
    ∃ A : DoubleOps ℝ, A.Exact ∧ ∃ buf : List Int,
      playSamples A ((MusicPlayer.construct A).setTempo 60) "R4 A4_4".toList = .ok buf
      ∧ buf.length = 88200 ∧ buf.take 44100 = List.replicate 44100 0 := by
  obtain ⟨A, hA⟩ := DoubleOps.exists_exact
  obtain ⟨_, _, tone, _, hplay, hlen, htake⟩ := playSamples_rest_then_tone A hA
  exact ⟨A, hA, _, hplay, hlen, htake⟩

/-! ## C12: a whole note at tempo 120 -/

/-- C12. In exact arithmetic, rendering `A4_1` at tempo 120 yields exactly one
event, the Tone of 440 Hz lasting `(60 / 120) * (4 / 1) = 2` seconds, and a buffer
of exactly 88200 samples. -/
theorem playSamples_whole_note (A : DoubleOps ℝ) (hA : A.Exact) :
    (tokens "A4_1".toList).mapM (parseNote A ((MusicPlayer.construct A).setTempo 120))
        = .ok [{ frequency := 440, duration := 2, isRest := false }]
      ∧ (60 / 120 : ℝ) * (4 / 1) = 2
      ∧ ∃ buf : List Int,
          playSamples A ((MusicPlayer.construct A).setTempo 120) "A4_1".toList = .ok buf
          ∧ buf.length = 88200 := by
  have hsec : noteSeconds A 120 1 = 2 := by
    rw [noteSeconds_exact A hA 120 1 (by decide) (by decide)]; norm_num
  have ht : parseNote A ((MusicPlayer.construct A).setTempo 120) "A4_1".toList
      = .ok { frequency := 440, duration := 2, isRest := false } := by
    have h := parseNote_spelled_suffix A ((MusicPlayer.construct A).setTempo 120) rfl
      ['A', '4'] 440 (find_A4_exact A hA) 1 (by decide) (by decide)
    have hk : "A4_1".toList = ['A', '4'] ++ '_' :: to_string 1 := by decide
    rw [hk, h]
    show Except.ok
      ({ frequency := 440, duration := noteSeconds A 120 1, isRest := false } : Note ℝ) = _
    rw [hsec]
  have htok : tokens "A4_1".toList = ["A4_1".toList] := by decide
  obtain ⟨tone, htone, hlen, _⟩ := generateTone_exact A hA
    ((MusicPlayer.construct A).setTempo 120) rfl 440 2 (by norm_num) (by norm_num)
  have hfl : ⌊(44100 : ℝ) * 2⌋.toNat = 88200 :=
    floor_natCast_mul 44100 2 88200 (by norm_num)
  rw [hfl] at hlen
  refine ⟨?_, by norm_num, tone, ?_, hlen⟩
  · rw [htok, List.mapM_cons, ht]
    rfl
  · unfold playSamples
    rw [htok]
    simp only [playLoop, renderToken, ht, htone, List.nil_append, Bool.false_eq_true, if_false]

/-- C12, at the exact interpretation: the buffer rendered for `A4_1` at tempo 120
has 88200 samples. -/
theorem playSamples_whole_note_witness :
    ∃ A : DoubleOps ℝ, A.Exact ∧ ∃ buf : List Int,
      playSamples A ((MusicPlayer.construct A).setTempo 120) "A4_1".toList = .ok buf
      ∧ buf.length = 88200 := by
  obtain ⟨A, hA⟩ := DoubleOps.exists_exact
  exact ⟨A, hA, (playSamples_whole_note A hA).2.2⟩

/-! ## C13: the number of samples of an event -/

/-- C13, refuted as stated: in exact arithmetic a duration of `3/16` s gives
`44100 * 3/16 = 8268.75`, and `generateSilence` and `generateTone` produce 8268
samples where rounding gives 8269; for the sixteenth note at tempo 120
(`1/8` s, `5512.5`) they produce 5512 samples where rounding gives 5513. -/
theorem sampleCount_round_cex :
    ∃ A : DoubleOps ℝ, A.Exact ∧
      generateSilence A (MusicPlayer.construct A) (3 / 16) = .ok (List.replicate 8268 0)
      ∧ (∃ buf : List Int, generateTone A (MusicPlayer.construct A) 440 (3 / 16) = .ok buf
          ∧ buf.length = 8268)
      ∧ round ((44100 : ℝ) * (3 / 16)) = 8269
      ∧ generateSilence A (MusicPlayer.construct A) (1 / 8) = .ok (List.replicate 5512 0)
      ∧ round ((44100 : ℝ) * (1 / 8)) = 5513 := by
  obtain ⟨A, hA⟩ := DoubleOps.exists_exact
  have hf1 : ⌊(44100 : ℝ) * (3 / 16)⌋ = 8268 := by
    rw [Int.floor_eq_iff]; constructor <;> norm_num
  have hf2 : ⌊(44100 : ℝ) * (1 / 8)⌋ = 5512 := by
    rw [Int.floor_eq_iff]; constructor <;> norm_num
  have hs1 := generateSilence_exact A hA (MusicPlayer.construct A) rfl (3 / 16) (by norm_num)
    (by norm_num)
  have hs2 := generateSilence_exact A hA (MusicPlayer.construct A) rfl (1 / 8) (by norm_num)
    (by norm_num)
  obtain ⟨buf, hbuf, hlen, _⟩ := generateTone_exact A hA (MusicPlayer.construct A) rfl 440
    (3 / 16) (by norm_num) (by norm_num)
  rw [hf1] at hs1 hlen
  rw [hf2] at hs2
  refine ⟨A, hA, hs1, ⟨buf, hbuf, hlen⟩, ?_, hs2, ?_⟩
  · rw [round_eq, Int.floor_eq_iff]; constructor <;> norm_num
  · rw [round_eq, Int.floor_eq_iff]; constructor <;> norm_num

/-- C13, amended. For every arithmetic whose `static_cast<int>` truncates toward
zero, and every event for which the product `sampleRate * duration`, as the
program computes it, has a value `x` with `0 ≤ x < 2^31`: the synthesiser produces
exactly `⌊x⌋` samples, the computed product truncated and never rounded.
`generateSilence` returns `⌊x⌋` zeros; the loop of `generateTone` runs over the
indices `0, ..., ⌊x⌋ - 1`, and returns a buffer of `⌊x⌋` samples whenever the
conversion of each sample is defined. -/
theorem sampleCount_truncates {F : Type} (A : DoubleOps F) (val : F → ℝ)
    (hT : TruncatesToInt A val) (p : MusicPlayer F) (d : F)
    (h0 : 0 ≤ val (A.mul (A.ofInt p.sampleRate) d))
    (h1 : val (A.mul (A.ofInt p.sampleRate) d) < 2147483648)
    (f : F) (fade : Int)
    (hfade : A.toInt (A.mul (A.ofInt p.sampleRate) (A.lit 0.02)) = some fade) :
    generateSilence A p d
        = .ok (List.replicate ⌊val (A.mul (A.ofInt p.sampleRate) d)⌋.toNat 0)
      ∧ generateTone A p f d
        = (List.map Int.ofNat
            (List.range ⌊val (A.mul (A.ofInt p.sampleRate) d)⌋.toNat)).mapM
            (fun i => toneSample A p f ⌊val (A.mul (A.ofInt p.sampleRate) d)⌋ fade i)
      ∧ ((∀ i : Int, 0 ≤ i → i < ⌊val (A.mul (A.ofInt p.sampleRate) d)⌋ →
            ∃ v : Int,
              toneSample A p f ⌊val (A.mul (A.ofInt p.sampleRate) d)⌋ fade i = .ok v) →
          ∃ buf : List Int, generateTone A p f d = .ok buf
            ∧ buf.length = ⌊val (A.mul (A.ofInt p.sampleRate) d)⌋.toNat) := by
  have hr : -2147483649 < val (A.mul (A.ofInt p.sampleRate) d)
      ∧ val (A.mul (A.ofInt p.sampleRate) d) < 2147483648 := ⟨by linarith, h1⟩
  have hn : A.toInt (A.mul (A.ofInt p.sampleRate) d)
      = some ⌊val (A.mul (A.ofInt p.sampleRate) d)⌋ := by
    rw [hT]
    simp only [hr, and_self, if_true, h0]
  have hneg : ¬ (⌊val (A.mul (A.ofInt p.sampleRate) d)⌋ < 0) :=
    not_lt.2 (Int.floor_nonneg.2 h0)
  have htone : generateTone A p f d
      = (List.map Int.ofNat
          (List.range ⌊val (A.mul (A.ofInt p.sampleRate) d)⌋.toNat)).mapM
          (fun i => toneSample A p f ⌊val (A.mul (A.ofInt p.sampleRate) d)⌋ fade i) := by
    unfold generateTone
    rw [hn]
    simp only [hneg, if_false, hfade, castRange_eq]
  refine ⟨?_, htone, ?_⟩
  · unfold generateSilence
    rw [hn]
    simp only [hneg, if_false]
  · intro hall
    obtain ⟨buf, hbuf, hlen, _⟩ := mapM_ok_of_forall
      (fun i : Int => toneSample A p f ⌊val (A.mul (A.ofInt p.sampleRate) d)⌋ fade i)
      (fun _ => True)
      (List.map Int.ofNat (List.range ⌊val (A.mul (A.ofInt p.sampleRate) d)⌋.toNat)) (by
        intro i hi
        obtain ⟨k, hk, rfl⟩ := List.mem_map.1 hi
        have hk' : k < ⌊val (A.mul (A.ofInt p.sampleRate) d)⌋.toNat := List.mem_range.1 hk
        obtain ⟨v, hv⟩ := hall (Int.ofNat k) (Int.ofNat_nonneg k)
          (by have : Int.ofNat k = (k : Int) := rfl
              omega)
        exact ⟨v, hv, trivial⟩)
    exact ⟨buf, htone.trans hbuf, by rw [hlen, List.length_map, List.length_range]⟩

/-- C13 amended, at a concrete input: in exact arithmetic (`val` the identity) a
sixteenth note at tempo 120 (`1/8` s, product `5512.5`) gets 5512 samples, as a
rest and as a tone of 440 Hz. -/
theorem sampleCount_truncates_witness :
    ∃ A : DoubleOps ℝ, A.Exact ∧
      generateSilence A (MusicPlayer.construct A) (1 / 8) = .ok (List.replicate 5512 0)
      ∧ ∃ buf : List Int, generateTone A (MusicPlayer.construct A) 440 (1 / 8) = .ok buf
          ∧ buf.length = 5512 := by
  obtain ⟨A, hA⟩ := DoubleOps.exists_exact
  have e : A.mul (A.ofInt (MusicPlayer.construct A).sampleRate) (1 / 8) = 44100 * (1 / 8) := by
    show A.mul (A.ofInt 44100) (1 / 8) = 44100 * (1 / 8)
    rw [hA.mul_eq, hA.ofInt_eq]; push_cast; rfl
  have hf : ⌊(44100 : ℝ) * (1 / 8)⌋ = 5512 := by
    rw [Int.floor_eq_iff]; constructor <;> norm_num
  have h := sampleCount_truncates A (fun x => x) (fun x => hA.toInt_eq x)
    (MusicPlayer.construct A) (1 / 8) (by rw [e]; norm_num) (by rw [e]; norm_num) 440 882
    (sampleCounts_exact A hA).2.2
  simp only [e, hf] at h
  refine ⟨A, hA, h.1, h.2.2 ?_⟩
  intro i hi0 hin
  obtain ⟨v, hv, _, _⟩ := toneSample_exact A hA (MusicPlayer.construct A) rfl 440 5512 882 i
    hi0 hin
  exact ⟨v, hv⟩

/-! ## C14: setting the tempo -/

/-- C14, refuted as stated: `setTempo(-5)` on the player as constructed (tempo 120)
leaves the tempo at `-5`, and the commands `tempo -5` and `tempo 0` of `main` reach
the tempos `-5` and `0`. -/
theorem setTempo_nonpositive_cex :
    ∃ A : DoubleOps ℝ, A.Exact ∧
      (MusicPlayer.construct A).tempo = 120
      ∧ ((MusicPlayer.construct A).setTempo (-5)).tempo = -5
      ∧ (tempoCommand (MusicPlayer.construct A) "tempo -5".toList).tempo = -5
      ∧ (tempoCommand (MusicPlayer.construct A) "tempo 0".toList).tempo = 0 := by
  obtain ⟨A, hA⟩ := DoubleOps.exists_exact
  exact ⟨A, hA, rfl, rfl, rfl, rfl⟩

/-- C14, amended. `setTempo(bpm)` validates nothing: for every player state and
every `int` `bpm` (also `bpm ≤ 0`) the tempo afterwards is `bpm` and every other
member is unchanged; the command `tempo <bpm>` of `main` calls it with every `int`
that `std::stoi` reads, and keeps the prior tempo only when `std::stoi` raises. -/
theorem setTempo_assigns {F : Type} (p : MusicPlayer F) (bpm : Int)
    (hlo : -2147483648 ≤ bpm) (hhi : bpm ≤ 2147483647) :
    (p.setTempo bpm).tempo = bpm
      ∧ (p.setTempo bpm).noteFrequencies = p.noteFrequencies
      ∧ (p.setTempo bpm).sampleRate = p.sampleRate
      ∧ (p.setTempo bpm).defaultOctave = p.defaultOctave
      ∧ (p.setTempo bpm).defaultDuration = p.defaultDuration
      ∧ tempoCommand p ("tempo ".toList ++ to_string bpm) = p.setTempo bpm
      ∧ ∀ input : List Char, (∃ e, stoi (input.drop 6) = .error e) →
          tempoCommand p input = p := by
  refine ⟨rfl, rfl, rfl, rfl, rfl, ?_, ?_⟩
  · have hd : ("tempo ".toList ++ to_string bpm).drop 6 = to_string bpm :=
      List.drop_left' (by decide)
    unfold tempoCommand
    rw [hd, stoi_to_string bpm hlo hhi]
  · rintro input ⟨e, he⟩
    unfold tempoCommand
    rw [he]

/-- C14 amended, at a concrete input: the command `tempo -5` sets the tempo of the
player as constructed to `-5`, and `tempo abc` leaves it at 120. -/
theorem setTempo_assigns_witness :
    ∃ A : DoubleOps ℝ, A.Exact ∧
      (tempoCommand (MusicPlayer.construct A) "tempo -5".toList).tempo = -5
      ∧ (tempoCommand (MusicPlayer.construct A) "tempo abc".toList).tempo = 120 := by
  obtain ⟨A, hA⟩ := DoubleOps.exists_exact
  have h := setTempo_assigns (MusicPlayer.construct A) (-5) (by decide) (by decide)
  have hk : "tempo -5".toList = "tempo ".toList ++ to_string (-5) := by decide
  refine ⟨A, hA, ?_, ?_⟩
  · rw [hk, h.2.2.2.2.2.1]; rfl
  · rw [h.2.2.2.2.2.2 "tempo abc".toList ⟨.invalid_argument, rfl⟩]; rfl

/-! ## C15: an input without tokens -/

theorem splitTokens_isspace (line : List Char) (h : ∀ c ∈ line, isspace c = true) :
    splitTokens [] line = [] := by
  induction line with
  | nil => rfl
  | cons c cs ih =>
    have hc : isspace c = true := h c (List.mem_cons_self _ _)
    simp only [splitTokens, hc, if_true]
    exact ih (fun x hx => h x (List.mem_cons_of_mem _ hx))

theorem writeWav_nil {F : Type} (p : MusicPlayer F) (hp : p.sampleRate = 44100) :
    writeWav p [] =
      [82, 73, 70, 70, 36, 0, 0, 0, 87, 65, 86, 69, 102, 109, 116, 32, 16, 0, 0, 0, 1, 0,
       1, 0, 68, 172, 0, 0, 136, 88, 1, 0, 2, 0, 16, 0, 100, 97, 116, 97, 0, 0, 0, 0] := by
  rw [writeWav_layout p hp [] (by decide)]
  decide

/-- C15. For every input string with zero tokens, and so for the empty string and
for every string of white space only (which have zero tokens), the renderer yields
a buffer of length 0, and the encoded WAV is exactly the 44-byte header, with
`dataSize = 0` and `chunkSize = 36`. -/
theorem play_no_tokens {F : Type} (A : DoubleOps F) (p : MusicPlayer F)
    (hp : p.sampleRate = 44100) (line : List Char)
    (hline : tokens line = [] ∨ ∀ c ∈ line, isspace c = true) :
    tokens line = []
      ∧ playSamples A p line = .ok []
      ∧ play A p line = .ok
          [82, 73, 70, 70, 36, 0, 0, 0, 87, 65, 86, 69, 102, 109, 116, 32, 16, 0, 0, 0, 1, 0,
           1, 0, 68, 172, 0, 0, 136, 88, 1, 0, 2, 0, 16, 0, 100, 97, 116, 97, 0, 0, 0, 0]
      ∧ (decodeWav (writeWav p [])).dataSize = 0
      ∧ (decodeWav (writeWav p [])).chunkSize = 36
      ∧ (writeWav p []).length = 44 := by
  have htok : tokens line = [] := by
    rcases hline with h | h
    · exact h
    · exact splitTokens_isspace line h
  have hs : playSamples A p line = .ok [] := by
    unfold playSamples
    rw [htok]
    rfl
  refine ⟨htok, hs, ?_, ?_, ?_, ?_⟩
  · unfold play
    rw [hs]
    simp only [writeWav_nil p hp]
  · rw [writeWav_nil p hp]; decide
  · rw [writeWav_nil p hp]; decide
  · rw [writeWav_nil p hp]; decide

/-- C15, at a concrete input: the line of two blanks and a tab has no token and is
rendered to the empty buffer. -/
theorem play_no_tokens_witness :
    ∃ A : DoubleOps ℝ, A.Exact ∧
      playSamples A (MusicPlayer.construct A) "  \t".toList = .ok []
      ∧ (decodeWav (writeWav (MusicPlayer.construct A) [])).dataSize = 0 := by
  obtain ⟨A, hA⟩ := DoubleOps.exists_exact
  have h := play_no_tokens A (MusicPlayer.construct A) rfl "  \t".toList (Or.inr (by decide))
  exact ⟨A, hA, h.2.1, h.2.2.2.1⟩

/-! ## C16: the grammar of rests -/

/-- C16. For every tempo `t > 0` and each rest marker `R`, `r`, `-`: the
one-character token parses to the Rest of duration `60 / t`, and for every
duration code `d` with `1 ≤ d ≤ 2^31 - 1` the marker followed by the decimal form
of `d` parses to the Rest of duration `(60 / t) * (4 / d)`. -/
theorem parseNote_rest_grammar {F : Type} (A : DoubleOps F) (t : Int) (_ht : 0 < t)
    (m : Char) (hm : m = 'R' ∨ m = 'r' ∨ m = '-') (d : Nat) (_hd1 : 1 ≤ d)
    (hd2 : d ≤ 2147483647) :
    parseNote A ((MusicPlayer.construct A).setTempo t) [m]
        = .ok { frequency := A.ofInt 0
                duration := A.div (A.lit 60) (A.ofInt t)
                isRest := true }
      ∧ parseNote A ((MusicPlayer.construct A).setTempo t) (m :: to_string (d : Int))
        = .ok { frequency := A.ofInt 0
                duration := A.mul (A.div (A.lit 60) (A.ofInt t)) (A.div (A.lit 4) (A.ofInt d))
                isRest := true } := by
  refine ⟨?_, parseNote_rest_suffix A _ m hm d (by omega) (by omega)⟩
  rcases hm with rfl | rfl | rfl <;> rfl

/-- C16, at a concrete input: in exact arithmetic at tempo 120 the token `-` is a
Rest of `60 / 120` s and the token `r8` a Rest of `(60 / 120) * (4 / 8)` s. -/
theorem parseNote_rest_grammar_witness :
    ∃ A : DoubleOps ℝ, A.Exact ∧
      parseNote A ((MusicPlayer.construct A).setTempo 120) "-".toList
        = .ok { frequency := 0, duration := 60 / 120, isRest := true }
      ∧ parseNote A ((MusicPlayer.construct A).setTempo 120) "r8".toList
        = .ok { frequency := 0, duration := (60 / 120) * (4 / 8), isRest := true } := by
  obtain ⟨A, hA⟩ := DoubleOps.exists_exact
  have h1 := parseNote_rest_grammar A 120 (by decide) '-' (Or.inr (Or.inr rfl)) 8 (by decide)
    (by decide)
  have h2 := parseNote_rest_grammar A 120 (by decide) 'r' (Or.inr (Or.inl rfl)) 8 (by decide)
    (by decide)
  have hk1 : "-".toList = ['-'] := by decide
  have hk2 : "r8".toList = 'r' :: to_string ((8 : Nat) : Int) := by decide
  refine ⟨A, hA, ?_, ?_⟩
  · rw [hk1, h1.1]
    simp [hA.div_eq, hA.lit_eq, hA.ofInt_eq]
  · rw [hk2, h2.2]
    simp [hA.mul_eq, hA.div_eq, hA.lit_eq, hA.ofInt_eq]

/-! ## C17: the default octave and the default duration code -/

theorem to_string_digit (o : Nat) (ho : o ≤ 8) : ∃ c : Char, to_string (o : Int) = [c] := by
  interval_cases o <;> exact ⟨_, rfl⟩

/-- A name is registered at some octave only if it is one of `spelledNames`. -/
theorem registered_name {F : Type} (A : DoubleOps F) (n : List Char)
    (hreg : ∃ o : Nat, o ≤ 8
      ∧ (FreqMap.find (initFrequencies A) (n ++ to_string (o : Int))).isSome = true) :
    n ∈ spelledNames := by
  obtain ⟨o, ho, hsome⟩ := hreg
  obtain ⟨f, hf⟩ := Option.isSome_iff_exists.1 hsome
  obtain ⟨o', ho', n', hn', heq⟩ := find_initFrequencies_key A _ f hf
  obtain ⟨c, hc⟩ := to_string_digit o ho
  obtain ⟨c', hc'⟩ := to_string_digit o' ho'
  rw [hc, hc'] at heq
  have := (List.append_inj' heq rfl).1
  rw [this]
  exact hn'

theorem scanPitch_name (d0 : Int) (n : List Char) (hn : n ∈ spelledNames) :
    n ≠ [] ∧ restMarker n = false ∧ scanPitch d0 n = (n, d0, []) := by
  have hn' : n = ['C'] ∨ n = ['C', '#'] ∨ n = ['D'] ∨ n = ['D', '#'] ∨ n = ['E'] ∨ n = ['F']
      ∨ n = ['F', '#'] ∨ n = ['G'] ∨ n = ['G', '#'] ∨ n = ['A'] ∨ n = ['A', '#'] ∨ n = ['B']
      ∨ n = ['D', 'b'] ∨ n = ['E', 'b'] ∨ n = ['G', 'b'] ∨ n = ['A', 'b'] ∨ n = ['B', 'b'] := by
    revert n
    decide
  rcases hn' with h | h | h | h | h | h | h | h | h | h | h | h | h | h | h | h | h <;>
    subst h <;> exact ⟨by simp, rfl, rfl⟩

theorem find_spelled {F : Type} (A : DoubleOps F) (n : List Char) (hn : n ∈ spelledNames) :
    ∃ f : F, FreqMap.find (initFrequencies A) (n ++ ['4']) = some f := by
  have hidx : ∀ m ∈ spelledNames, (FreqMap.find tableIndex (m ++ ['4'])).isSome = true := by
    decide
  obtain ⟨e, he⟩ := Option.isSome_iff_exists.1 (hidx n hn)
  refine ⟨noteFreq A e.1 e.2, ?_⟩
  rw [initFrequencies_eq_map]
  have hm := find_map (fun q : Nat × Nat => noteFreq A q.1 q.2) tableIndex (n ++ ['4'])
  rw [he] at hm
  exact hm

/-- C17. For every tempo `t > 0` and every name `n` (a letter A-G with an optional
accidental) that is registered in the pitch table, the tokens `n`, `n ++ "4"` and
`n ++ "4_4"` parse to the same event: the Tone of the frequency bound to
`n ++ "4"` with duration `(60 / t) * (4 / 4)`; an absent octave digit means octave
4 and an absent suffix means duration code 4. -/
theorem parseNote_defaults {F : Type} (A : DoubleOps F) (t : Int) (_ht : 0 < t)
    (n : List Char)
    (hreg : ∃ o : Nat, o ≤ 8
      ∧ (FreqMap.find (initFrequencies A) (n ++ to_string (o : Int))).isSome = true) :
    ∃ f : F, FreqMap.find (initFrequencies A) (n ++ ['4']) = some f
      ∧ parseNote A ((MusicPlayer.construct A).setTempo t) n
        = .ok { frequency := f
                duration := A.mul (A.div (A.lit 60) (A.ofInt t)) (A.div (A.lit 4) (A.ofInt 4))
                isRest := false }
      ∧ parseNote A ((MusicPlayer.construct A).setTempo t) (n ++ ['4'])
        = parseNote A ((MusicPlayer.construct A).setTempo t) n
      ∧ parseNote A ((MusicPlayer.construct A).setTempo t) (n ++ ['4', '_', '4'])
        = parseNote A ((MusicPlayer.construct A).setTempo t) n := by
  have hn := registered_name A n hreg
  obtain ⟨f, hf⟩ := find_spelled A n hn
  obtain ⟨hne, hrm, hscan⟩ := scanPitch_name 4 n hn
  have h4 : to_string 4 = ['4'] := by decide
  have h1 : parseNote A ((MusicPlayer.construct A).setTempo t) n
      = .ok { frequency := f, duration := noteSeconds A t 4, isRest := false } := by
    unfold parseNote
    have hscan' : scanPitch ((MusicPlayer.construct A).setTempo t).defaultOctave n
        = (n, 4, []) := hscan
    have hfind : FreqMap.find ((MusicPlayer.construct A).setTempo t).noteFrequencies
        (n ++ to_string 4) = some f := by rw [h4]; exact hf
    simp only [hne, hrm, hscan', if_false, Bool.false_eq_true, scanDuration, hfind]
    rfl
  have h2 : parseNote A ((MusicPlayer.construct A).setTempo t) (n ++ ['4'])
      = .ok { frequency := f, duration := noteSeconds A t 4, isRest := false } := by
    have h := parseNote_spelled A ((MusicPlayer.construct A).setTempo t) rfl (n ++ ['4']) f hf []
    rw [List.append_nil] at h
    rw [h]
    rfl
  have h3 : parseNote A ((MusicPlayer.construct A).setTempo t) (n ++ ['4', '_', '4'])
      = .ok { frequency := f, duration := noteSeconds A t 4, isRest := false } := by
    have h := parseNote_spelled_suffix A ((MusicPlayer.construct A).setTempo t) rfl
      (n ++ ['4']) f hf 4 (by decide) (by decide)
    rw [h4, List.append_assoc] at h
    exact h
  exact ⟨f, hf, h1, h2.trans h1.symm, h3.trans h1.symm⟩

/-- C17, at a concrete input: in exact arithmetic at tempo 120 the tokens `A`, `A4`
and `A4_4` all parse to the Tone of 440 Hz lasting `(60 / 120) * (4 / 4)` s. -/
theorem parseNote_defaults_witness :
    ∃ A : DoubleOps ℝ, A.Exact ∧
      parseNote A ((MusicPlayer.construct A).setTempo 120) "A".toList
        = .ok { frequency := 440, duration := (60 / 120) * (4 / 4), isRest := false }
      ∧ parseNote A ((MusicPlayer.construct A).setTempo 120) "A4".toList
        = parseNote A ((MusicPlayer.construct A).setTempo 120) "A".toList
      ∧ parseNote A ((MusicPlayer.construct A).setTempo 120) "A4_4".toList
        = parseNote A ((MusicPlayer.construct A).setTempo 120) "A".toList := by
  obtain ⟨A, hA⟩ := DoubleOps.exists_exact
  have hA4 := find_A4_exact A hA
  obtain ⟨f, hf, h1, h2, h3⟩ := parseNote_defaults A 120 (by decide) ['A']
    ⟨4, by decide, by
      have hk : ['A'] ++ to_string ((4 : Nat) : Int) = ['A', '4'] := by decide
      rw [hk, hA4]; rfl⟩
  have hf' : f = 440 := by
    have hk : ['A'] ++ ['4'] = ['A', '4'] := rfl
    rw [hk, hA4] at hf
    exact (Option.some.inj hf).symm
  refine ⟨A, hA, ?_, h2, h3⟩
  have hk : "A".toList = ['A'] := by decide
  rw [hk, h1, hf']
  simp [hA.mul_eq, hA.div_eq, hA.lit_eq, hA.ofInt_eq]

/-! ## C18: lower-case note letters -/

theorem lowercase_letter (c : Char) (hc : 'a' ≤ c ∧ c ≤ 'g') :
    c = 'a' ∨ c = 'b' ∨ c = 'c' ∨ c = 'd' ∨ c = 'e' ∨ c = 'f' ∨ c = 'g' := by
  have h1 : 97 ≤ c.toNat := hc.1
  have h2 : c.toNat ≤ 103 := hc.2
  have hcc : c = Char.ofNat c.toNat := (Char.ofNat_toNat c).symm
  generalize c.toNat = k at h1 h2 hcc
  subst hcc
  interval_cases k <;> decide

/-- C18. For every player state (every tempo) and every token whose first
character is a lower-case letter `a`..`g`, `parseNote` returns the same result
(the same `isRest` flag, frequency and duration, or the same exception) as for the
token with its first character replaced by the upper-case letter. -/
theorem parseNote_lowercase {F : Type} (A : DoubleOps F) (p : MusicPlayer F) (c : Char)
    (hc : 'a' ≤ c ∧ c ≤ 'g') (rest : List Char) :
    parseNote A p (c :: rest) = parseNote A p (Char.ofNat (c.toNat - 32) :: rest) := by
  have hs : restMarker (c :: rest) = restMarker (Char.ofNat (c.toNat - 32) :: rest)
      ∧ restMarker (c :: rest) = false
      ∧ scanPitch p.defaultOctave (c :: rest)
          = scanPitch p.defaultOctave (Char.ofNat (c.toNat - 32) :: rest) := by
    rcases lowercase_letter c hc with h | h | h | h | h | h | h <;> subst h <;>
      exact ⟨rfl, rfl, rfl⟩
  unfold parseNote
  simp only [List.cons_ne_nil, if_false, ← hs.1, hs.2.1, Bool.false_eq_true, ← hs.2.2]

/-- C18, at a concrete input: in exact arithmetic at tempo 120 the token `a4_8`
parses to the same Tone as `A4_8`, of 440 Hz lasting `(60 / 120) * (4 / 8)` s. -/
theorem parseNote_lowercase_witness :
    ∃ A : DoubleOps ℝ, A.Exact ∧
      parseNote A ((MusicPlayer.construct A).setTempo 120) "a4_8".toList
        = .ok { frequency := 440, duration := (60 / 120) * (4 / 8), isRest := false } := by
  obtain ⟨A, hA⟩ := DoubleOps.exists_exact
  have h := parseNote_lowercase A ((MusicPlayer.construct A).setTempo 120) 'a' (by decide)
    "4_8".toList
  have hk : "a4_8".toList = 'a' :: "4_8".toList := by decide
  have hk2 : Char.ofNat ('a'.toNat - 32) :: "4_8".toList
      = ['A', '4'] ++ '_' :: to_string 8 := by decide
  have hp := parseNote_spelled_suffix A ((MusicPlayer.construct A).setTempo 120) rfl
    ['A', '4'] 440 (find_A4_exact A hA) 8 (by decide) (by decide)
  refine ⟨A, hA, ?_⟩
  rw [hk, h, hk2, hp]
  show Except.ok
    ({ frequency := 440, duration := noteSeconds A 120 8, isRest := false } : Note ℝ) = _
  rw [noteSeconds_exact A hA 120 8 (by decide) (by decide)]
  norm_num

/-! ## C19: the end of a tone -/

/-- C19, refuted as stated: in exact arithmetic a tone of 1378 samples (a
sixty-fourth note at tempo 120, `⌊44100 / 32⌋` samples) has at its final sample
`i = 1377` the envelope `1377 / 2205` of the attack branch, not the release ramp
`0.7 * (1 - (i - (n - 4410)) / 4410) = 0.7 / 4410`. -/
theorem toneEnvelope_short_cex :
    ∃ A : DoubleOps ℝ, A.Exact ∧
      ⌊(44100 : ℝ) * ((60 / 120) * (4 / 64))⌋ = 1378
      ∧ toneEnvelope A (MusicPlayer.construct A) 1378 882 1377 = some (1377 / 2205)
      ∧ (1377 / 2205 : ℝ) ≠ 0.7 * (1 - ((1377 : ℝ) - ((1378 : ℝ) - 4410)) / 4410)
      ∧ (1377 / 2205 : ℝ) ≠ 0.7 / 4410 := by
  obtain ⟨A, hA⟩ := DoubleOps.exists_exact
  refine ⟨A, hA, ?_, ?_, by norm_num, by norm_num⟩
  · rw [Int.floor_eq_iff]; constructor <;> norm_num
  · rw [toneEnvelope_exact A hA _ rfl, adsrEnvelope_exact A hA]
    norm_num

/-- C19, amended. In exact arithmetic, for every Tone of `n ≥ 11025` samples and
every index `i` among its last 4410 samples (`n - 4410 ≤ i < n`) the envelope
applied by `generateTone` is the release ramp
`0.7 * (1 - (i - (n - 4410)) / 4410)`, so the envelope at the final sample
`i = n - 1` is `0.7 / 4410`. -/
theorem toneEnvelope_release (A : DoubleOps ℝ) (hA : A.Exact) (p : MusicPlayer ℝ)
    (hp : p.sampleRate = 44100) (n fade i : Int) (hn : 11025 ≤ n) (hi : n - 4410 ≤ i)
    (_hin : i < n) :
    toneEnvelope A p n fade i
        = some (0.7 * (1 - ((i : ℝ) - ((n : ℝ) - 4410)) / 4410))
      ∧ toneEnvelope A p n fade (n - 1) = some (0.7 / 4410) := by
  have key : ∀ j : Int, n - 4410 ≤ j →
      toneEnvelope A p n fade j = some (0.7 * (1 - ((j : ℝ) - ((n : ℝ) - 4410)) / 4410)) := by
    intro j hj
    rw [toneEnvelope_exact A hA p hp, adsrEnvelope_exact A hA]
    have h1 : ¬ (j < 2205) := by omega
    have h2 : ¬ (j < 6615) := by omega
    have h3 : ¬ (j < n - 4410) := by omega
    simp only [h1, h2, h3, if_false]
  refine ⟨key i hi, ?_⟩
  rw [key (n - 1) (by omega)]
  congr 1
  push_cast
  ring

/-- C19 amended, at a concrete input: a tone of 44100 samples has at its final
sample `i = 44099` the envelope `0.7 / 4410`. -/
theorem toneEnvelope_release_witness :
    ∃ A : DoubleOps ℝ, A.Exact ∧
      toneEnvelope A (MusicPlayer.construct A) 44100 882 44099 = some (0.7 / 4410) := by
  obtain ⟨A, hA⟩ := DoubleOps.exists_exact
  exact ⟨A, hA, (toneEnvelope_release A hA (MusicPlayer.construct A) rfl 44100 882 44099
    (by decide) (by decide) (by decide)).2⟩

/-! ## C20: the range of a stored sample -/

theorem waveform_exact (A : DoubleOps ℝ) (hA : A.Exact) (f t : ℝ) :
    waveform A f t =
      (Real.sin (2 * Real.pi * f * t) + 0.3 * Real.sin (4 * Real.pi * f * t)
        + 0.1 * Real.sin (6 * Real.pi * f * t)) / 1.4 := by
  unfold waveform
  simp only [hA.sin_eq, hA.mul_eq, hA.add_eq, hA.lit_eq, hA.pi_eq]
  rw [hA.div_eq _ _ (by push_cast; norm_num)]
  push_cast
  norm_num

/-- C20. In exact arithmetic, for every frequency `f`, every tone length `n` and
every index `0 ≤ i < n`: the waveform is
`(sin(2πft) + 0.3 sin(4πft) + 0.1 sin(6πft)) / 1.4` at `t = i / 44100`, the
envelope lies in `[0, 1]`, the value `waveform * envelope * 32767 * 0.5` has
magnitude at most `16383.5`, and the conversion to `int16_t` is defined with a
stored sample within `[-32768, 32767]`. -/
theorem toneSample_in_range (A : DoubleOps ℝ) (hA : A.Exact) (p : MusicPlayer ℝ)
    (hp : p.sampleRate = 44100) (f : ℝ) (n fade i : Int) (h0 : 0 ≤ i) (hn : i < n) :
    ∃ env : ℝ, ∃ v : Int,
      toneEnvelope A p n fade i = some env ∧ 0 ≤ env ∧ env ≤ 1
      ∧ waveform A f ((i : ℝ) / 44100) =
          (Real.sin (2 * Real.pi * f * ((i : ℝ) / 44100))
            + 0.3 * Real.sin (4 * Real.pi * f * ((i : ℝ) / 44100))
            + 0.1 * Real.sin (6 * Real.pi * f * ((i : ℝ) / 44100))) / 1.4
      ∧ |waveform A f ((i : ℝ) / 44100) * env * 32767 * 0.5| ≤ 16383.5
      ∧ A.toInt16 (waveform A f ((i : ℝ) / 44100) * env * 32767 * 0.5) = some v
      ∧ toneSample A p f n fade i = .ok v
      ∧ -32768 ≤ v ∧ v ≤ 32767 := by
  obtain ⟨he0, he1⟩ := adsrEnvelope_bounds A hA n i (fadeEnvelope A n fade i) h0 hn
  have ht : A.div (A.ofInt i) (A.ofInt p.sampleRate) = (i : ℝ) / 44100 := by
    rw [hp, hA.ofInt_eq, hA.ofInt_eq, hA.div_eq _ _ (by norm_num)]
    norm_num
  have hw := waveform_abs_le_one A hA f ((i : ℝ) / 44100)
  have hx := scaled_abs_le _ _ hw he0 he1
  obtain ⟨v, hv, hlo, hhi⟩ := toInt16_exact_small A hA _ hx
  refine ⟨_, v, toneEnvelope_exact A hA p hp n fade i, he0, he1, waveform_exact A hA f _, hx,
    hv, ?_, by omega, by omega⟩
  rw [toneSample_eq, toneEnvelope_exact A hA p hp, ht]
  have e : A.mul (A.mul (A.mul (waveform A f ((i : ℝ) / 44100))
        (adsrEnvelope A n 2205 4410 4410 i (fadeEnvelope A n fade i))) (A.ofInt 32767))
        (A.lit 0.5)
      = waveform A f ((i : ℝ) / 44100)
          * adsrEnvelope A n 2205 4410 4410 i (fadeEnvelope A n fade i) * 32767 * 0.5 := by
    rw [hA.mul_eq, hA.mul_eq, hA.mul_eq, hA.ofInt_eq 32767, hA.lit_eq]
    push_cast
    norm_num
  simp only [e, hv]

/-- C20, at a concrete input: in exact arithmetic sample 2205 of a tone of 440 Hz
and 44100 samples is stored without overflow, within `[-32768, 32767]`. -/
theorem toneSample_in_range_witness :
    ∃ A : DoubleOps ℝ, A.Exact ∧ ∃ v : Int,
      toneSample A (MusicPlayer.construct A) 440 44100 882 2205 = .ok v
      ∧ -32768 ≤ v ∧ v ≤ 32767 := by
  obtain ⟨A, hA⟩ := DoubleOps.exists_exact
  obtain ⟨_, v, _, _, _, _, _, _, hv, hlo, hhi⟩ :=
    toneSample_in_range A hA (MusicPlayer.construct A) rfl 440 44100 882 2205 (by decide)
      (by decide)
  exact ⟨A, hA, v, hv, hlo, hhi⟩

/-! ## C21: the four phases of the envelope -/

/-- C21. In exact arithmetic, for every tone of `n ≥ 11025` samples and every
index `0 ≤ i < n`, the envelope applied by `generateTone` is the four-phase
reference: `i / 2205` for `i < 2205`; `1 - 0.3 * (i - 2205) / 4410` for
`2205 ≤ i < 6615`; `0.7` for `6615 ≤ i < n - 4410`; and
`0.7 * (1 - (i - (n - 4410)) / 4410)` for `n - 4410 ≤ i < n`. -/
theorem toneEnvelope_four_phase (A : DoubleOps ℝ) (hA : A.Exact) (p : MusicPlayer ℝ)
    (hp : p.sampleRate = 44100) (n fade i : Int) (hn : 11025 ≤ n) (_h0 : 0 ≤ i)
    (_hin : i < n) :
    (i < 2205 → toneEnvelope A p n fade i = some ((i : ℝ) / 2205))
      ∧ (2205 ≤ i → i < 6615 →
          toneEnvelope A p n fade i = some (1 - 0.3 * ((i : ℝ) - 2205) / 4410))
      ∧ (6615 ≤ i → i < n - 4410 → toneEnvelope A p n fade i = some 0.7)
      ∧ (n - 4410 ≤ i →
          toneEnvelope A p n fade i
            = some (0.7 * (1 - ((i : ℝ) - ((n : ℝ) - 4410)) / 4410))) := by
  rw [toneEnvelope_exact A hA p hp, adsrEnvelope_exact A hA]
  refine ⟨?_, ?_, ?_, ?_⟩
  · intro h1
    simp only [h1, if_true]
  · intro h1 h2
    have h1' : ¬ (i < 2205) := by omega
    simp only [h1', h2, if_false, if_true]
    congr 1
    ring
  · intro h1 h2
    have h1' : ¬ (i < 2205) := by omega
    have h2' : ¬ (i < 6615) := by omega
    simp only [h1', h2', h2, if_false, if_true]
  · intro h1
    have h1' : ¬ (i < 2205) := by omega
    have h2' : ¬ (i < 6615) := by omega
    have h3' : ¬ (i < n - 4410) := by omega
    simp only [h1', h2', h3', if_false]

/-- C21, at a concrete input: in exact arithmetic a tone of 44100 samples has the
envelope `1000 / 2205` at `i = 1000`, `1 - 0.3 * (3000 - 2205) / 4410` at
`i = 3000`, `0.7` at `i = 20000` and `0.7 * (1 - (42000 - 39690) / 4410)` at
`i = 42000`. -/
theorem toneEnvelope_four_phase_witness :
    ∃ A : DoubleOps ℝ, A.Exact ∧
      toneEnvelope A (MusicPlayer.construct A) 44100 882 1000 = some (1000 / 2205)
      ∧ toneEnvelope A (MusicPlayer.construct A) 44100 882 3000
          = some (1 - 0.3 * (3000 - 2205) / 4410)
      ∧ toneEnvelope A (MusicPlayer.construct A) 44100 882 20000 = some 0.7
      ∧ toneEnvelope A (MusicPlayer.construct A) 44100 882 42000
          = some (0.7 * (1 - (42000 - (44100 - 4410)) / 4410)) := by
  obtain ⟨A, hA⟩ := DoubleOps.exists_exact
  have h1 := (toneEnvelope_four_phase A hA (MusicPlayer.construct A) rfl 44100 882 1000
    (by decide) (by decide) (by decide)).1 (by decide)
  have h2 := (toneEnvelope_four_phase A hA (MusicPlayer.construct A) rfl 44100 882 3000
    (by decide) (by decide) (by decide)).2.1 (by decide) (by decide)
  have h3 := (toneEnvelope_four_phase A hA (MusicPlayer.construct A) rfl 44100 882 20000
    (by decide) (by decide) (by decide)).2.2.1 (by decide) (by decide)
  have h4 := (toneEnvelope_four_phase A hA (MusicPlayer.construct A) rfl 44100 882 42000
    (by decide) (by decide) (by decide)).2.2.2 (by decide)
  refine ⟨A, hA, ?_, ?_, ?_, ?_⟩
  · rw [h1]; norm_num
  · rw [h2]; norm_num
  · rw [h3]
  · rw [h4]; norm_num

/-! ## C22: the fade step is dead code -/

theorem toneSample_noFade {F : Type} (A : DoubleOps F) (p : MusicPlayer F) (frequency : F)
    (numSamples fadeSamples i : Int) :
    toneSample A p frequency numSamples fadeSamples i
      = toneSampleNoFade A p frequency numSamples i := by
  unfold toneSample toneSampleNoFade
  cases A.toInt (A.mul (A.ofInt p.sampleRate) (A.lit 0.05)) <;>
    cases A.toInt (A.mul (A.ofInt p.sampleRate) (A.lit 0.1)) <;> rfl

/-- C22. The fade computation of `generateTone` has no effect on the output: for
every incoming value of `envelope` the ADSR step assigns the same result, so every
sample equals the one computed with the fade step deleted, for every frequency,
tone length, fade length and index; and whenever the conversion of
`sampleRate * 0.02` to `int` is defined (it is 882), `generateTone` equals its
variant without the fade computation. -/
theorem generateTone_fade_dead {F : Type} (A : DoubleOps F) (p : MusicPlayer F)
    (frequency duration : F) :
    (∀ (n a d r i : Int) (e1 e2 : F),
        adsrEnvelope A n a d r i e1 = adsrEnvelope A n a d r i e2)
      ∧ (∀ n fade i : Int,
          toneSample A p frequency n fade i = toneSampleNoFade A p frequency n i)
      ∧ ((A.toInt (A.mul (A.ofInt p.sampleRate) (A.lit 0.02))).isSome = true →
          generateTone A p frequency duration = generateToneNoFade A p frequency duration) := by
  refine ⟨fun _ _ _ _ _ _ _ => rfl, fun n fade i => toneSample_noFade A p frequency n fade i, ?_⟩
  intro hfade
  obtain ⟨fade, hf⟩ := Option.isSome_iff_exists.1 hfade
  unfold generateTone generateToneNoFade
  cases A.toInt (A.mul (A.ofInt p.sampleRate) duration) with
  | none => rfl
  | some numSamples =>
    by_cases hneg : numSamples < 0
    · simp only [hneg, if_true]
    · simp only [hneg, if_false, hf, castRange_eq, toneSample_noFade]

/-- C22, at the exact interpretation: a tone of 440 Hz lasting `1/8` s is the same
buffer with and without the fade computation. -/
theorem generateTone_fade_dead_witness :
    ∃ A : DoubleOps ℝ, A.Exact ∧
      generateTone A (MusicPlayer.construct A) 440 (1 / 8)
        = generateToneNoFade A (MusicPlayer.construct A) 440 (1 / 8) := by
  obtain ⟨A, hA⟩ := DoubleOps.exists_exact
  refine ⟨A, hA, (generateTone_fade_dead A (MusicPlayer.construct A) 440 (1 / 8)).2.2 ?_⟩
  show (A.toInt (A.mul (A.ofInt 44100) (A.lit 0.02))).isSome = true
  rw [(sampleCounts_exact A hA).2.2]
  rfl

/-! ## C23: unread trailing characters -/

theorem scanLetter_upper (L : Char) (hL : L ∈ ['A', 'B', 'C', 'D', 'E', 'F', 'G'])
    (t : List Char) : scanLetter (L :: t) = ([L], t) := by
  simp only [List.mem_cons, List.mem_singleton, List.not_mem_nil, or_false] at hL
  rcases hL with rfl | rfl | rfl | rfl | rfl | rfl | rfl <;> rfl

theorem scanAccidental_take (noteName : List Char) (a : Char) (ha : a = '#' ∨ a = 'b')
    (t : List Char) : scanAccidental noteName (a :: t) = (noteName ++ [a], t) := by
  rcases ha with rfl | rfl <;> rfl

theorem scanAccidental_skip (noteName : List Char) (c : Char) (t : List Char)
    (h1 : c ≠ '#') (h2 : c ≠ 'b') : scanAccidental noteName (c :: t) = (noteName, c :: t) := by
  have h : ¬ (c = '#' ∨ c = 'b') := fun h => h.elim h1 h2
  show (if c = '#' ∨ c = 'b' then (noteName ++ [c], t) else (noteName, c :: t)) = _
  rw [if_neg h]

theorem scanOctave_skip (d0 : Int) (c : Char) (t : List Char) (h : ¬ ('0' ≤ c ∧ c ≤ '8')) :
    scanOctave d0 (c :: t) = (d0, c :: t) := by
  show (if '0' ≤ c ∧ c ≤ '8' then ((c.toNat : Int) - 48, t) else (d0, c :: t)) = _
  rw [if_neg h]

theorem spelledNames_cases (n : List Char) (hn : n ∈ spelledNames) :
    n = ['C'] ∨ n = ['C', '#'] ∨ n = ['D'] ∨ n = ['D', '#'] ∨ n = ['E']
      ∨ n = ['F'] ∨ n = ['F', '#'] ∨ n = ['G'] ∨ n = ['G', '#'] ∨ n = ['A']
      ∨ n = ['A', '#'] ∨ n = ['B'] ∨ n = ['D', 'b'] ∨ n = ['E', 'b'] ∨ n = ['G', 'b']
      ∨ n = ['A', 'b'] ∨ n = ['B', 'b'] := by
  revert n
  decide

/-- A name of the table followed by a character that starts neither an
accidental (after a bare letter) nor an octave: the parser reads the name and
stops. -/
theorem scanPitch_trailing (d0 : Int) (n : List Char) (hn : n ∈ spelledNames) (c : Char)
    (cs : List Char) (h8 : ¬ ('0' ≤ c ∧ c ≤ '8'))
    (hacc : n.length = 1 → c ≠ '#' ∧ c ≠ 'b') :
    n ++ c :: cs ≠ [] ∧ restMarker (n ++ c :: cs) = false
      ∧ scanPitch d0 (n ++ c :: cs) = (n, d0, c :: cs) := by
  have hn' : (∃ L, L ∈ ['A', 'B', 'C', 'D', 'E', 'F', 'G'] ∧ n = [L])
      ∨ (∃ L a, L ∈ ['A', 'B', 'C', 'D', 'E', 'F', 'G'] ∧ (a = '#' ∨ a = 'b') ∧ n = [L, a]) := by
    rcases spelledNames_cases n hn with h | h | h | h | h | h | h | h | h | h | h | h | h | h | h | h | h <;>
      subst h <;>
      first
        | exact Or.inl ⟨_, by decide, rfl⟩
        | exact Or.inr ⟨_, _, by decide, Or.inl rfl, rfl⟩
        | exact Or.inr ⟨_, _, by decide, Or.inr rfl, rfl⟩
  rcases hn' with ⟨L, hL, rfl⟩ | ⟨L, a, hL, ha, rfl⟩
  · obtain ⟨h1, h2⟩ := hacc rfl
    have hr : restMarker ([L] ++ c :: cs) = false := by
      simp only [List.mem_cons, List.mem_singleton, List.not_mem_nil, or_false] at hL
      rcases hL with rfl | rfl | rfl | rfl | rfl | rfl | rfl <;> rfl
    refine ⟨by simp, hr, ?_⟩
    show scanPitch d0 (L :: c :: cs) = ([L], d0, c :: cs)
    unfold scanPitch
    simp only [scanLetter_upper L hL, scanAccidental_skip [L] c cs h1 h2,
      scanOctave_skip d0 c cs h8]
  · have hr : restMarker ([L, a] ++ c :: cs) = false := by
      simp only [List.mem_cons, List.mem_singleton, List.not_mem_nil, or_false] at hL
      rcases hL with rfl | rfl | rfl | rfl | rfl | rfl | rfl <;> rfl
    refine ⟨by simp, hr, ?_⟩
    show scanPitch d0 (L :: a :: c :: cs) = ([L, a], d0, c :: cs)
    unfold scanPitch
    simp only [scanLetter_upper L hL, scanAccidental_take [L] a ha, scanOctave_skip d0 c cs h8]
    rfl

/-- C23. For every tempo `t > 0`, every name `n` registered in the pitch table and
every string `rest` whose first character is not an octave digit `0`..`8` and not
`_` (and, when `n` is a bare letter, not `#` or `b`), the token `n ++ rest` parses
to the same event as `n`: the characters of `rest` are ignored. -/
theorem parseNote_trailing_ignored {F : Type} (A : DoubleOps F) (t : Int) (_ht : 0 < t)
    (n : List Char)
    (hreg : ∃ o : Nat, o ≤ 8
      ∧ (FreqMap.find (initFrequencies A) (n ++ to_string (o : Int))).isSome = true)
    (c : Char) (cs : List Char) (h8 : ¬ ('0' ≤ c ∧ c ≤ '8')) (hu : c ≠ '_')
    (hacc : n.length = 1 → c ≠ '#' ∧ c ≠ 'b') :
    parseNote A ((MusicPlayer.construct A).setTempo t) (n ++ c :: cs)
        = parseNote A ((MusicPlayer.construct A).setTempo t) n
      ∧ ∃ f : F, FreqMap.find (initFrequencies A) (n ++ ['4']) = some f
          ∧ parseNote A ((MusicPlayer.construct A).setTempo t) (n ++ c :: cs)
            = .ok { frequency := f
                    duration :=
                      A.mul (A.div (A.lit 60) (A.ofInt t)) (A.div (A.lit 4) (A.ofInt 4))
                    isRest := false } := by
  have hn := registered_name A n hreg
  obtain ⟨f, hf⟩ := find_spelled A n hn
  obtain ⟨hne, hrm, hscan⟩ := scanPitch_name 4 n hn
  obtain ⟨hne', hrm', hscan'⟩ := scanPitch_trailing 4 n hn c cs h8 hacc
  have h4 : to_string 4 = ['4'] := by decide
  have hfind : FreqMap.find ((MusicPlayer.construct A).setTempo t).noteFrequencies
      (n ++ to_string 4) = some f := by rw [h4]; exact hf
  have h1 : parseNote A ((MusicPlayer.construct A).setTempo t) n
      = .ok { frequency := f, duration := noteSeconds A t 4, isRest := false } := by
    unfold parseNote
    have hs : scanPitch ((MusicPlayer.construct A).setTempo t).defaultOctave n
        = (n, 4, []) := hscan
    simp only [hne, hrm, hs, if_false, Bool.false_eq_true, scanDuration, hfind]
    rfl
  have h2 : parseNote A ((MusicPlayer.construct A).setTempo t) (n ++ c :: cs)
      = .ok { frequency := f, duration := noteSeconds A t 4, isRest := false } := by
    unfold parseNote
    have hs : scanPitch ((MusicPlayer.construct A).setTempo t).defaultOctave (n ++ c :: cs)
        = (n, 4, c :: cs) := hscan'
    simp only [hne', hrm', hs, if_false, Bool.false_eq_true, scanDuration, hu, hfind]
    rfl
  exact ⟨h2.trans h1.symm, f, hf, h2⟩

/-- C23, at a concrete input: in exact arithmetic at tempo 120 the token `A9`
parses to the Tone A4 of 440 Hz with the quarter-note duration
`(60 / 120) * (4 / 4)`, as `A` does. -/
theorem parseNote_trailing_ignored_witness :
    ∃ A : DoubleOps ℝ, A.Exact ∧
      parseNote A ((MusicPlayer.construct A).setTempo 120) "A9".toList
        = .ok { frequency := 440, duration := (60 / 120) * (4 / 4), isRest := false }
      ∧ parseNote A ((MusicPlayer.construct A).setTempo 120) "A9".toList
        = parseNote A ((MusicPlayer.construct A).setTempo 120) "A".toList := by
  obtain ⟨A, hA⟩ := DoubleOps.exists_exact
  have hA4 := find_A4_exact A hA
  obtain ⟨heq, f, hf, hp⟩ := parseNote_trailing_ignored A 120 (by decide) ['A']
    ⟨4, by decide, by
      have hk : ['A'] ++ to_string ((4 : Nat) : Int) = ['A', '4'] := by decide
      rw [hk, hA4]; rfl⟩
    '9' [] (by decide) (by decide) (fun _ => ⟨by decide, by decide⟩)
  have hf' : f = 440 := by
    have hk : ['A'] ++ ['4'] = ['A', '4'] := rfl
    rw [hk, hA4] at hf
    exact (Option.some.inj hf).symm
  have hk9 : "A9".toList = ['A'] ++ '9' :: [] := by decide
  have hk1 : "A".toList = ['A'] := by decide
  refine ⟨A, hA, ?_, ?_⟩
  · rw [hk9, hp, hf']
    simp [hA.mul_eq, hA.div_eq, hA.lit_eq, hA.ofInt_eq]
  · rw [hk9, hk1]; exact heq

end MusicCode

/-! # Facts about `simpleLinkedList.cpp` -/

namespace SimpleLinkedList

theorem insertAtTailLoop_eq (value : Int) (rest : List Int) : ∀ temp : Int,
    insertAtTailLoop value temp rest = temp :: (rest ++ [value]) := by
  induction rest with
  | nil => intro temp; rfl
  | cons next rest ih =>
    intro temp
    simp only [insertAtTailLoop, ih, List.cons_append]

/-- The method `insertAtTail` appends the value to the sequence. -/
theorem insertAtTail_eq (value : Int) (list : LinkedList) :
    insertAtTail value list = list ++ [value] := by
  cases list with
  | nil => rfl
  | cons head rest => exact insertAtTailLoop_eq value rest head

theorem deleteNodeLoop_eq (value : Int) (rest : List Int) : ∀ current : Int,
    deleteNodeLoop value current rest = current :: rest.erase value := by
  induction rest with
  | nil => intro current; rfl
  | cons next rest ih =>
    intro current
    by_cases h : next = value
    · subst h
      simp [deleteNodeLoop]
    · have hb : (next == value) = false := by simpa using h
      simp only [deleteNodeLoop, ne_eq, h, not_false_eq_true, if_true, ih,
        List.erase_cons, hb]
      rfl

theorem deleteNode_eq_erase (value : Int) (list : LinkedList) :
    deleteNode value list = list.erase value := by
  cases list with
  | nil => rfl
  | cons head rest =>
    by_cases h : head = value
    · subst h
      simp [deleteNode]
    · have hb : (head == value) = false := by simpa using h
      simp only [deleteNode, h, if_false, deleteNodeLoop_eq, List.erase_cons, hb]
      rfl

/-- C24. Viewing the list as a sequence, `deleteNode(v)` erases the first
occurrence of `v`: when the sequence is `xs ++ v :: ys` with `v` not in `xs` the
result is `xs ++ ys` (exactly that node is removed, the others keep their order),
and when `v` does not occur the list is unchanged.  In `main` the list after the
four insertions is `[20, 10, 5, 30]` and `deleteNode(20)` gives `[10, 5, 30]`. -/
theorem deleteNode_first_occurrence (v : Int) (list : LinkedList) :
    deleteNode v list = list.erase v
      ∧ (∀ xs ys : List Int, list = xs ++ v :: ys → v ∉ xs → deleteNode v list = xs ++ ys)
      ∧ (v ∉ list → deleteNode v list = list)
      ∧ mainList = [20, 10, 5, 30]
      ∧ deleteNode 20 mainList = [10, 5, 30] := by
  refine ⟨deleteNode_eq_erase v list, ?_, ?_, by decide, by decide⟩
  · intro xs ys hl hx
    rw [deleteNode_eq_erase, hl, List.erase_append_right _ hx, List.erase_cons_head]
  · intro hv
    rw [deleteNode_eq_erase, List.erase_of_not_mem hv]

end SimpleLinkedList

/-! # Facts about `gradeUsingMap.cpp` -/

namespace GradeUsingMap

theorem find_assign_self (m : GradeMap) (k : List Char) (v : Int) :
    (m.assign k v).find k = some v := by
  simp [GradeMap.assign, GradeMap.find]

theorem find_assign_other (m : GradeMap) (k k' : List Char) (v : Int) (h : k' ≠ k) :
    (m.assign k v).find k' = m.find k' := by
  have h' : ¬ (k = k') := fun e => h e.symm
  simp [GradeMap.assign, GradeMap.find, h']

/-- C25. `addOrUpdateGrade(code, grade)` returns `false` if and only if `code` is
empty or `grade < 0` or `grade > 100`; when it returns `false` the student (the
grade map included) is unchanged; when it returns `true` the map afterwards binds
`code` to `grade` and agrees with the previous map on every other subject code;
the console prints `Invalid input.` in the first case and `Saved!` in the second. -/
theorem addOrUpdateGrade_spec (s : Student) (code : List Char) (grade : Int) :
    ((s.addOrUpdateGrade code grade).1 = false ↔ (code = [] ∨ grade < 0 ∨ grade > 100))
      ∧ ((s.addOrUpdateGrade code grade).1 = false → (s.addOrUpdateGrade code grade).2 = s)
      ∧ ((s.addOrUpdateGrade code grade).1 = true →
          (s.addOrUpdateGrade code grade).2.studentGrade.find code = some grade
          ∧ (∀ k : List Char, k ≠ code →
              (s.addOrUpdateGrade code grade).2.studentGrade.find k = s.studentGrade.find k)
          ∧ (s.addOrUpdateGrade code grade).2.studentID = s.studentID
          ∧ (s.addOrUpdateGrade code grade).2.studentName = s.studentName)
      ∧ (addGradeChoice s code grade).1
          = (if code = [] ∨ grade < 0 ∨ grade > 100 then "Invalid input.\n".toList
             else "Saved!\n".toList) := by
  by_cases h : code = [] ∨ grade < 0 ∨ grade > 100
  · have e : s.addOrUpdateGrade code grade = (false, s) := by
      unfold Student.addOrUpdateGrade
      rw [if_pos h]
    have em : (addGradeChoice s code grade).1 = "Invalid input.\n".toList := by
      unfold addGradeChoice
      rw [e]
      rfl
    rw [e, em, if_pos h]
    exact ⟨⟨fun _ => h, fun _ => rfl⟩, fun _ => rfl, fun hc => by simp at hc, rfl⟩
  · have e : s.addOrUpdateGrade code grade
        = (true, { s with studentGrade := s.studentGrade.assign code grade }) := by
      unfold Student.addOrUpdateGrade
      rw [if_neg h]
    have em : (addGradeChoice s code grade).1 = "Saved!\n".toList := by
      unfold addGradeChoice
      rw [e]
      rfl
    rw [e, em, if_neg h]
    refine ⟨⟨fun hc => by simp at hc, fun hc => absurd hc h⟩, fun hc => by simp at hc,
      fun _ => ?_, rfl⟩
    exact ⟨find_assign_self _ _ _, fun k hk => find_assign_other _ _ _ _ hk, rfl, rfl⟩

/-- The two calls of `runStudentConsolePtr`, on a student without grades: both
are accepted, and a grade of 101 is then refused. -/
theorem addOrUpdateGrade_demo :
    ((Student.addOrUpdateGrade
          ((Student.mk "1".toList "Ann".toList []).addOrUpdateGrade "CSIT128".toList 90).2
          "CSIT121".toList 85).2.studentGrade
      = [("CSIT121".toList, 85), ("CSIT128".toList, 90)])
    ∧ ((Student.mk "1".toList "Ann".toList []).addOrUpdateGrade "CSIT128".toList 101).1 = false
    ∧ ((Student.mk "1".toList "Ann".toList []).addOrUpdateGrade [] 50).1 = false
    ∧ ((Student.mk "1".toList "Ann".toList []).addOrUpdateGrade "CSIT128".toList (-1)).1
        = false := by
  decide

end GradeUsingMap
